import Mathlib

/-!
# cppack: a MessagePack packer and unpacker

A shallow embedding of `include/msgpack/msgpack.hpp`.

* A byte is a natural number below 256; the output buffer
  (`Packer::serialized_object`) and the input buffer are lists of bytes.
* `Packer` methods are state transformers on the output buffer.
* `Unpacker` methods read an input buffer through the cursor `data_pointer`
  (an index into the buffer).  A read outside the buffer has no defined
  result in the source; the embedding returns `none` for it.
* Unsigned machine integers are naturals reduced modulo `2 ^ width`; signed
  machine integers are integers brought into the signed range of their width
  by `int_cast` (two's-complement wrap-around).  The signed operations of the
  source that can leave their range are `abs`, `llabs` and the negation in
  `twos_complement`, each at the most negative value of `int` or `long long`,
  and the conversion `int64_t(integral_part)` of the floating-point packers
  on a value outside `int64_t`.  The language gives these cases no result.
  The packers wrap around there; the namespace `Defined` has `abs`, `llabs`
  and `twos_complement` with no result there, and the two agree wherever the
  language defines a result.
* `std::size_t` is 64 bits wide and `int` 32 bits; in the unpackers
  `unsigned long` has 64 bits (LP64).  The `float` packer, whose output depends
  on it, takes the size of `unsigned long` as a parameter.
* A finite `float` or `double` is its exact rational value; see the section on
  floating-point values.
-/

namespace msgpack

/-! ## Format constants (`enum FormatConstants`) -/

namespace FormatConstants

def nil : Nat := 0xc0
def false_bool : Nat := 0xc2
def true_bool : Nat := 0xc3
def bin8 : Nat := 0xc4
def bin16 : Nat := 0xc5
def bin32 : Nat := 0xc6
def float32 : Nat := 0xca
def float64 : Nat := 0xcb
def uint8 : Nat := 0xcc
def uint16 : Nat := 0xcd
def uint32 : Nat := 0xce
def uint64 : Nat := 0xcf
def int8 : Nat := 0xd0
def int16 : Nat := 0xd1
def int32 : Nat := 0xd2
def int64 : Nat := 0xd3
def str8 : Nat := 0xd9
def str16 : Nat := 0xda
def str32 : Nat := 0xdb
def array16 : Nat := 0xdc
def array32 : Nat := 0xdd
def map16 : Nat := 0xde
def map32 : Nat := 0xdf

end FormatConstants

open FormatConstants

/-! ## Machine integers -/

/-- The four integer widths of the source (`int8_t` .. `int64_t`,
`uint8_t` .. `uint64_t`). -/
inductive Width where
  | w8
  | w16
  | w32
  | w64
  deriving DecidableEq, Repr

/-- Number of bits of a width. -/
def Width.bits : Width → Nat
  | .w8 => 8
  | .w16 => 16
  | .w32 => 32
  | .w64 => 64

/-- Conversion of an integer to the signed type of `bits` bits: the value in
`[-2^(bits-1), 2^(bits-1))` congruent to `x` modulo `2^bits`. -/
def int_cast (bits : Nat) (x : Int) : Int :=
  (x + 2 ^ (bits - 1)) % 2 ^ bits - 2 ^ (bits - 1)

/-- Conversion of an integer to the unsigned type of `bits` bits. -/
def uint_cast (bits : Nat) (x : Int) : Nat :=
  (x % 2 ^ bits).toNat

/-- Embedding of `std::numeric_limits<T>::max()` of the unsigned type of `bits` bits. -/
def uint_max (bits : Nat) : Nat := 2 ^ bits - 1

/-- Embedding of `std::numeric_limits<T>::min()` of the signed type of `bits` bits. -/
def int_min (bits : Nat) : Int := -(2 ^ (bits - 1))

/-- Embedding of `abs` of `<cmath>` on `int`.  For `INT_MIN` the source call
overflows and has no defined result; this definition wraps around there
(`Defined.abs` has no result there). -/
def abs (value : Int) : Int := int_cast 32 (if value < 0 then -value else value)

/-- Embedding of `llabs` on `long long`.  For `LLONG_MIN` the source call
overflows and has no defined result; this definition wraps around there
(`Defined.llabs` has no result there). -/
def llabs (value : Int) : Int := int_cast 64 (if value < 0 then -value else value)

/-- Embedding of `std::bitset<n>(unsigned long long)`: the low `n` bits of the argument. -/
def bitset (n : Nat) (x : Nat) : Nat := x % 2 ^ n

/-- Embedding of `~bits` on a `std::bitset<n>`. -/
def bitset_not (n : Nat) (bits : Nat) : Nat := 2 ^ n - 1 - bits % 2 ^ n

/-- Embedding of `std::bitset<64> twos_complement(int64_t value)`, wrapping
around at `LLONG_MIN`, where `llabs` and `~abs_v + 1` overflow. -/
def twos_complement64 (value : Int) : Nat :=
  if value < 0 then
    let abs_v := llabs value
    bitset 64 (uint_cast 64 (int_cast 64 (int_cast 64 (-abs_v - 1) + 1)))
  else
    bitset 64 (uint_cast 64 value)

/-- Embedding of `std::bitset<32> twos_complement(int32_t value)`, wrapping
around at `INT_MIN`, where `abs` and `~abs_v + 1` overflow. -/
def twos_complement32 (value : Int) : Nat :=
  if value < 0 then
    let abs_v := abs value
    bitset 32 (uint_cast 64 (int_cast 32 (int_cast 32 (-abs_v - 1) + 1)))
  else
    bitset 32 (uint_cast 32 value)

/-- Embedding of `std::bitset<16> twos_complement(int16_t value)`. -/
def twos_complement16 (value : Int) : Nat :=
  if value < 0 then
    let abs_v := abs value
    bitset 16 (uint_cast 64 (int_cast 32 (int_cast 32 (-abs_v - 1) + 1)))
  else
    bitset 16 (uint_cast 16 value)

/-- Embedding of `std::bitset<8> twos_complement(int8_t value)`. -/
def twos_complement8 (value : Int) : Nat :=
  if value < 0 then
    let abs_v := abs value
    bitset 8 (uint_cast 64 (int_cast 32 (int_cast 32 (-abs_v - 1) + 1)))
  else
    bitset 8 (uint_cast 8 value)

/-! ### Signed operations as the language defines them

Above, `abs`, `llabs` and the `+ 1` of `twos_complement` wrap around where
their exact result leaves the type.  The language gives a signed operation no
result in that case.  The definitions of this section follow the same source
lines with that reading: `some` result where the language defines one, `none`
where an operation overflows. -/

namespace Defined

/-- A signed operation on the type of `bits` bits whose exact result is `x`:
the result is `x` when the type holds it, and there is none when it does not
(the operation overflows). -/
def int_result (bits : Nat) (x : Int) : Option Int :=
  if int_min bits ≤ x ∧ x < 2 ^ (bits - 1) then some x else none

/-- Embedding of `abs` on `int`, with no result for `INT_MIN`. -/
def abs (value : Int) : Option Int :=
  int_result 32 (if value < 0 then -value else value)

/-- Embedding of `llabs` on `long long`, with no result for `LLONG_MIN`. -/
def llabs (value : Int) : Option Int :=
  int_result 64 (if value < 0 then -value else value)

/-- Embedding of `std::bitset<64> twos_complement(int64_t value)`: `llabs`,
then `~abs_v` (bitwise, always defined), then the signed `+ 1`. -/
def twos_complement64 (value : Int) : Option Nat :=
  if value < 0 then
    (llabs value).bind fun abs_v =>
      (int_result 64 (int_cast 64 (-abs_v - 1) + 1)).map fun r =>
        bitset 64 (uint_cast 64 r)
  else
    some (bitset 64 (uint_cast 64 value))

/-- Embedding of `std::bitset<32> twos_complement(int32_t value)`. -/
def twos_complement32 (value : Int) : Option Nat :=
  if value < 0 then
    (abs value).bind fun abs_v =>
      (int_result 32 (int_cast 32 (-abs_v - 1) + 1)).map fun r =>
        bitset 32 (uint_cast 64 r)
  else
    some (bitset 32 (uint_cast 32 value))

/-- Embedding of `std::bitset<16> twos_complement(int16_t value)`; `abs` is
applied to the value promoted to `int`. -/
def twos_complement16 (value : Int) : Option Nat :=
  if value < 0 then
    (abs value).bind fun abs_v =>
      (int_result 32 (int_cast 32 (-abs_v - 1) + 1)).map fun r =>
        bitset 16 (uint_cast 64 r)
  else
    some (bitset 16 (uint_cast 16 value))

/-- Embedding of `std::bitset<8> twos_complement(int8_t value)`; `abs` is
applied to the value promoted to `int`. -/
def twos_complement8 (value : Int) : Option Nat :=
  if value < 0 then
    (abs value).bind fun abs_v =>
      (int_result 32 (int_cast 32 (-abs_v - 1) + 1)).map fun r =>
        bitset 8 (uint_cast 64 r)
  else
    some (bitset 8 (uint_cast 8 value))

end Defined

/-! ## Packer -/

/-- The encoder: its only member is the output buffer. -/
structure Packer where
  serialized_object : List Nat
  deriving DecidableEq, Repr

namespace Packer

/-- Embedding of `serialized_object.emplace_back(x)`: append `x` converted to `uint8_t`. -/
def emplace_back (p : Packer) (x : Nat) : Packer :=
  ⟨p.serialized_object ++ [x % 256]⟩

/-- Embedding of `Packer::vector()`. -/
def vector (p : Packer) : List Nat := p.serialized_object

/-- Embedding of `Packer::clear()`. -/
def clear (_p : Packer) : Packer := ⟨[]⟩

/-- The loop
`for (auto i = n; i > 0; --i) emplace_back(uint8_t(value >> (8U * (i - 1)) & 0xff));`
with `i` the number of iterations still to run. -/
def emplace_big_endian : Nat → Nat → Packer → Packer
  | 0, _, p => p
  | i + 1, value, p =>
      emplace_big_endian i value (p.emplace_back ((value >>> (8 * i)) &&& 0xff))

/-- Embedding of `Packer::pack_type(const uint8_t &)`. -/
def pack_type_uint8 (p : Packer) (value : Nat) : Packer :=
  if value ≤ 0x7f then
    p.emplace_back value
  else
    (p.emplace_back uint8).emplace_back value

/-- Embedding of `Packer::pack_type(const uint16_t &)`. -/
def pack_type_uint16 (p : Packer) (value : Nat) : Packer :=
  if value > uint_max 8 then
    emplace_big_endian 2 value (p.emplace_back uint16)
  else
    p.pack_type_uint8 (value % 2 ^ 8)

/-- Embedding of `Packer::pack_type(const uint32_t &)`. -/
def pack_type_uint32 (p : Packer) (value : Nat) : Packer :=
  if value > uint_max 16 then
    emplace_big_endian 4 value (p.emplace_back uint32)
  else
    p.pack_type_uint16 (value % 2 ^ 16)

/-- Embedding of `Packer::pack_type(const uint64_t &)`. -/
def pack_type_uint64 (p : Packer) (value : Nat) : Packer :=
  if value > uint_max 32 then
    emplace_big_endian 8 value (p.emplace_back uint64)
  else
    p.pack_type_uint32 (value % 2 ^ 32)

/-- Overload resolution of `pack_type` on the unsigned integer types. -/
def pack_type_unsigned (w : Width) (p : Packer) (value : Nat) : Packer :=
  match w with
  | .w8 => p.pack_type_uint8 value
  | .w16 => p.pack_type_uint16 value
  | .w32 => p.pack_type_uint32 value
  | .w64 => p.pack_type_uint64 value

/-- Embedding of `Packer::pack_type(const int8_t &)`. -/
def pack_type_int8 (p : Packer) (value : Int) : Packer :=
  let p1 := if value > 31 ∨ value < -32 then p.emplace_back int8 else p
  p1.emplace_back (twos_complement8 value % 2 ^ 8)

/-- Embedding of `Packer::pack_type(const int16_t &)`. -/
def pack_type_int16 (p : Packer) (value : Int) : Packer :=
  if abs value < abs (int_min 8) then
    p.pack_type_int8 (int_cast 8 value)
  else
    emplace_big_endian 2 (twos_complement16 value % 2 ^ 16) (p.emplace_back int16)

/-- Embedding of `Packer::pack_type(const int32_t &)`.  At `INT_MIN` the
source evaluates `abs(INT_MIN)`, which has no defined result; `abs` wraps
around there. -/
def pack_type_int32 (p : Packer) (value : Int) : Packer :=
  if abs value < abs (int_min 16) then
    p.pack_type_int16 (int_cast 16 value)
  else
    emplace_big_endian 4 (twos_complement32 value % 2 ^ 32) (p.emplace_back int32)

/-- Embedding of `Packer::pack_type(const int64_t &)`.  At `LLONG_MIN` the
source evaluates `llabs(LLONG_MIN)` before it tests for the minimum; `llabs`
wraps around there. -/
def pack_type_int64 (p : Packer) (value : Int) : Packer :=
  if llabs value < llabs (int_min 32) ∧ value ≠ int_min 64 then
    p.pack_type_int32 (int_cast 32 value)
  else
    emplace_big_endian 8 (twos_complement64 value % 2 ^ 64) (p.emplace_back int64)

/-- Overload resolution of `pack_type` on the signed integer types. -/
def pack_type_signed (w : Width) (p : Packer) (value : Int) : Packer :=
  match w with
  | .w8 => p.pack_type_int8 value
  | .w16 => p.pack_type_int16 value
  | .w32 => p.pack_type_int32 value
  | .w64 => p.pack_type_int64 value

/-- The loop `for (... elem : value) serialized_object.emplace_back(elem);`. -/
def emplace_all (p : Packer) (value : List Nat) : Packer :=
  value.foldl emplace_back p

/-- Embedding of `Packer::pack_type(const std::string &)`; a string is the list of its
characters, each given by its byte value. -/
def pack_type_string (p : Packer) (value : List Nat) : Packer :=
  if value.length < 32 then
    (p.emplace_back ((value.length % 2 ^ 8) ||| 0b10100000)).emplace_all value
  else if value.length < uint_max 8 then
    ((p.emplace_back str8).emplace_back (value.length % 2 ^ 8)).emplace_all value
  else if value.length < uint_max 16 then
    (emplace_big_endian 2 value.length (p.emplace_back str16)).emplace_all value
  else if value.length < uint_max 32 then
    (emplace_big_endian 4 value.length (p.emplace_back str32)).emplace_all value
  else
    p

/-- Embedding of `Packer::pack_type(const std::vector<uint8_t> &)`. -/
def pack_type_bin (p : Packer) (value : List Nat) : Packer :=
  if value.length < uint_max 8 then
    ((p.emplace_back bin8).emplace_back (value.length % 2 ^ 8)).emplace_all value
  else if value.length < uint_max 16 then
    (emplace_big_endian 2 value.length (p.emplace_back bin16)).emplace_all value
  else if value.length < uint_max 32 then
    (emplace_big_endian 4 value.length (p.emplace_back bin32)).emplace_all value
  else
    p

/-- Embedding of `Packer::pack_array`, for a container whose elements are packed by
`pack_elem` (the instance of `pack_type` at the element type). -/
def pack_array {α : Type} (pack_elem : Packer → α → Packer) (p : Packer)
    (array : List α) : Packer :=
  if array.length < 16 then
    array.foldl pack_elem (p.emplace_back ((array.length ||| 0b10010000) % 2 ^ 8))
  else if array.length < uint_max 16 then
    array.foldl pack_elem (emplace_big_endian 2 array.length (p.emplace_back array16))
  else if array.length < uint_max 32 then
    array.foldl pack_elem (emplace_big_endian 4 array.length (p.emplace_back array32))
  else
    p

end Packer

/-! ## Unpacker -/

/-- The decoder: a borrowed input buffer and the read cursor into it. -/
structure Unpacker where
  data : List Nat
  data_pointer : Nat
  deriving DecidableEq, Repr

namespace Unpacker

/-- Embedding of `*data_pointer`. -/
def deref (u : Unpacker) : Option Nat := u.data[u.data_pointer]?

/-- Embedding of `data_pointer++` (the pointer effect alone). -/
def incr (u : Unpacker) : Unpacker := { u with data_pointer := u.data_pointer + 1 }

/-- The loop
`for (auto i = n; i > 0; --i) value += *++data_pointer << 8 * (i - 1);`
on a target of `bits` bits, with `i` the number of iterations still to run. -/
def accumulate_preinc (bits : Nat) : Nat → Unpacker → Nat → Option (Nat × Unpacker)
  | 0, u, value => some (value, u)
  | i + 1, u, value =>
      match u.incr.deref with
      | none => none
      | some b => accumulate_preinc bits i u.incr ((value + b <<< (8 * i)) % 2 ^ bits)

/-- Embedding of `Unpacker::unpack_type(uint8_t &)`. -/
def unpack_type_uint8 (u : Unpacker) (_value : Nat) : Option (Nat × Unpacker) :=
  match u.deref with
  | none => none
  | some t =>
    if t = uint8 then
      match u.incr.deref with
      | none => none
      | some b => some (b % 2 ^ 8, u.incr.incr)
    else
      some (t % 2 ^ 8, u.incr)

/-- Embedding of `Unpacker::unpack_type(uint16_t &)`. -/
def unpack_type_uint16 (u : Unpacker) (value : Nat) : Option (Nat × Unpacker) :=
  match u.deref with
  | none => none
  | some t =>
    if t = uint16 then
      match accumulate_preinc 16 2 u value with
      | none => none
      | some (v, u1) => some (v, u1.incr)
    else if t = uint8 then
      match u.incr.deref with
      | none => none
      | some b => some (b % 2 ^ 16, u.incr.incr)
    else
      some (t % 2 ^ 16, u.incr)

/-- Embedding of `Unpacker::unpack_type(uint32_t &)`. -/
def unpack_type_uint32 (u : Unpacker) (value : Nat) : Option (Nat × Unpacker) :=
  match u.deref with
  | none => none
  | some t =>
    if t = uint32 then
      match accumulate_preinc 32 4 u value with
      | none => none
      | some (v, u1) => some (v, u1.incr)
    else if t = uint16 then
      match accumulate_preinc 32 2 u value with
      | none => none
      | some (v, u1) => some (v, u1.incr)
    else if t = uint8 then
      match u.incr.deref with
      | none => none
      | some b => some (b % 2 ^ 32, u.incr.incr)
    else
      some (t % 2 ^ 32, u.incr)

/-- Embedding of `Unpacker::unpack_type(uint64_t &)`. -/
def unpack_type_uint64 (u : Unpacker) (value : Nat) : Option (Nat × Unpacker) :=
  match u.deref with
  | none => none
  | some t =>
    if t = uint64 then
      match accumulate_preinc 64 8 u value with
      | none => none
      | some (v, u1) => some (v, u1.incr)
    else if t = uint32 then
      match accumulate_preinc 64 4 u value with
      | none => none
      | some (v, u1) => some (v, u1.incr)
    else if t = uint16 then
      match accumulate_preinc 64 2 u value with
      | none => none
      | some (v, u1) => some (v, u1.incr)
    else if t = uint8 then
      match u.incr.deref with
      | none => none
      | some b => some (b % 2 ^ 64, u.incr.incr)
    else
      some (t % 2 ^ 64, u.incr)

/-- Overload resolution of `unpack_type` on the unsigned integer types. -/
def unpack_type_unsigned (w : Width) (u : Unpacker) (value : Nat) :
    Option (Nat × Unpacker) :=
  match w with
  | .w8 => u.unpack_type_uint8 value
  | .w16 => u.unpack_type_uint16 value
  | .w32 => u.unpack_type_uint32 value
  | .w64 => u.unpack_type_uint64 value

/-- The loop
`for (auto i = n; i > 0; --i) bits |= T(*data_pointer++) << 8 * (i - 1);`
on a `std::bitset<bits>`, with `i` the number of iterations still to run. -/
def or_postinc (bits : Nat) : Nat → Unpacker → Nat → Option (Nat × Unpacker)
  | 0, u, acc => some (acc, u)
  | i + 1, u, acc =>
      match u.deref with
      | none => none
      | some b => or_postinc bits i u.incr (acc ||| bitset bits (b <<< (8 * i)))

/-- Embedding of `Unpacker::unpack_type(int8_t &)`. -/
def unpack_type_int8 (u : Unpacker) : Option (Int × Unpacker) :=
  match u.deref with
  | none => none
  | some t =>
    if t = int8 then
      match u.incr.deref with
      | none => none
      | some b => some (int_cast 8 b, u.incr.incr)
    else
      some (int_cast 8 t, u.incr)

/-- Embedding of `Unpacker::unpack_type(int16_t &)`. -/
def unpack_type_int16 (u : Unpacker) : Option (Int × Unpacker) :=
  match u.deref with
  | none => none
  | some t =>
    if t = int16 then
      match or_postinc 16 2 u.incr 0 with
      | none => none
      | some (bits, u1) =>
        if bits.testBit 15 then
          some (int_cast 16 (-1 * ((bitset_not 16 bits % 2 ^ 16 : Nat) + 1)), u1)
        else
          some (int_cast 16 (bits % 2 ^ 16 : Nat), u1)
    else if t = int8 then
      match u.unpack_type_int8 with
      | none => none
      | some (val, u1) => some (val, u1)
    else
      some (int_cast 16 t, u.incr)

/-- Embedding of `Unpacker::unpack_type(int32_t &)`. -/
def unpack_type_int32 (u : Unpacker) : Option (Int × Unpacker) :=
  match u.deref with
  | none => none
  | some t =>
    if t = int32 then
      match or_postinc 32 4 u.incr 0 with
      | none => none
      | some (bits, u1) =>
        if bits.testBit 31 then
          some (int_cast 32 (((2 ^ 64 - 1) * (bitset_not 32 bits + 1) % 2 ^ 64 : Nat) : Int), u1)
        else
          some (int_cast 32 (bits : Nat), u1)
    else if t = int16 then
      match u.unpack_type_int16 with
      | none => none
      | some (val, u1) => some (val, u1)
    else if t = int8 then
      match u.unpack_type_int8 with
      | none => none
      | some (val, u1) => some (val, u1)
    else
      some (int_cast 32 t, u.incr)

/-- Embedding of `Unpacker::unpack_type(int64_t &)`. -/
def unpack_type_int64 (u : Unpacker) : Option (Int × Unpacker) :=
  match u.deref with
  | none => none
  | some t =>
    if t = int64 then
      match or_postinc 64 8 u.incr 0 with
      | none => none
      | some (bits, u1) =>
        if bits.testBit 63 then
          some (int_cast 64
            (((2 ^ 64 - 1) * ((bitset_not 64 bits + 1) % 2 ^ 64) % 2 ^ 64 : Nat) : Int), u1)
        else
          some (int_cast 64 (bits : Nat), u1)
    else if t = int32 then
      match u.unpack_type_int32 with
      | none => none
      | some (val, u1) => some (val, u1)
    else if t = int16 then
      match u.unpack_type_int16 with
      | none => none
      | some (val, u1) => some (val, u1)
    else if t = int8 then
      match u.unpack_type_int8 with
      | none => none
      | some (val, u1) => some (val, u1)
    else
      some (int_cast 64 t, u.incr)

/-- Overload resolution of `unpack_type` on the signed integer types. -/
def unpack_type_signed (w : Width) (u : Unpacker) : Option (Int × Unpacker) :=
  match w with
  | .w8 => u.unpack_type_int8
  | .w16 => u.unpack_type_int16
  | .w32 => u.unpack_type_int32
  | .w64 => u.unpack_type_int64

/-- The loop
`for (auto i = n; i > 0; --i) size += T(*data_pointer++) << 8 * (i - 1);`
on a `std::size_t` accumulator, where `T` is the unsigned type of `c` bits and
the shift is computed in 32 bits; `i` is the number of iterations still to
run. -/
def accumulate_postinc (c : Nat) : Nat → Unpacker → Nat → Option (Nat × Unpacker)
  | 0, u, size => some (size, u)
  | i + 1, u, size =>
      match u.deref with
      | none => none
      | some b =>
        accumulate_postinc c i u.incr ((size + ((b % 2 ^ c) <<< (8 * i)) % 2 ^ 32) % 2 ^ 64)

/-- The range constructor `{data_pointer, data_pointer + size}`: the `size`
bytes at the cursor, when the buffer holds that many; the cursor itself is
not moved. -/
def range (u : Unpacker) (size : Nat) : Option (List Nat) :=
  if size ≤ (u.data.drop u.data_pointer).length then
    some ((u.data.drop u.data_pointer).take size)
  else
    none

/-- Embedding of `Unpacker::unpack_type(std::string &)`. -/
def unpack_type_string (u : Unpacker) : Option (List Nat × Unpacker) :=
  match u.deref with
  | none => none
  | some t =>
    if t = str32 then
      match accumulate_postinc 32 4 u.incr 0 with
      | none => none
      | some (str_size, u1) =>
        match u1.range str_size with
        | none => none
        | some value => some (value, u1)
    else if t = str16 then
      match accumulate_postinc 16 2 u.incr 0 with
      | none => none
      | some (str_size, u1) =>
        match u1.range str_size with
        | none => none
        | some value => some (value, u1)
    else if t = str8 then
      match accumulate_postinc 8 1 u.incr 0 with
      | none => none
      | some (str_size, u1) =>
        match u1.range str_size with
        | none => none
        | some value => some (value, u1)
    else
      let str_size := t &&& 0b00011111
      match u.incr.range str_size with
      | none => none
      | some value => some (value, { u.incr with data_pointer := u.incr.data_pointer + str_size })

/-- Embedding of `Unpacker::unpack_type(std::vector<uint8_t> &)`. -/
def unpack_type_bin (u : Unpacker) : Option (List Nat × Unpacker) :=
  match u.deref with
  | none => none
  | some t =>
    if t = bin32 then
      match accumulate_postinc 32 4 u.incr 0 with
      | none => none
      | some (bin_size, u1) =>
        match u1.range bin_size with
        | none => none
        | some value => some (value, u1)
    else if t = bin16 then
      match accumulate_postinc 16 2 u.incr 0 with
      | none => none
      | some (bin_size, u1) =>
        match u1.range bin_size with
        | none => none
        | some value => some (value, u1)
    else
      match accumulate_postinc 8 1 u.incr 0 with
      | none => none
      | some (bin_size, u1) =>
        match u1.range bin_size with
        | none => none
        | some value => some (value, u1)

end Unpacker

/-! ## Wire-format descriptions used to state the results -/

/-- The `n`-byte big-endian representation of `v` (most significant byte
first). -/
def big_endian : Nat → Nat → List Nat
  | 0, _ => []
  | i + 1, v => (v / 2 ^ (8 * i) % 256) :: big_endian i v

/-- The minimal-width MessagePack encoding of an unsigned value. -/
def enc_unsigned (v : Nat) : List Nat :=
  if v ≤ 0x7f then [v]
  else if v ≤ 0xff then [0xcc, v]
  else if v ≤ 0xffff then 0xcd :: big_endian 2 v
  else if v ≤ 0xffffffff then 0xce :: big_endian 4 v
  else 0xcf :: big_endian 8 v

/-- The header `Packer::pack_type(const std::string &)` writes for a string of
`n` bytes, `n < 2 ^ 32 - 1`. -/
def str_header (n : Nat) : List Nat :=
  if n < 32 then [0xa0 + n]
  else if n < 255 then [0xd9, n]
  else if n < 65535 then 0xda :: big_endian 2 n
  else 0xdb :: big_endian 4 n

/-- Embedding of `fabs`. -/
def fabs (x : ℚ) : ℚ := if x < 0 then -x else x

/-- Embedding of `modf(value, &integral_part)`: the fractional remainder
(returned) and the integral part (stored), both with the sign of `value`. -/
def modf (value : ℚ) : ℚ × Int :=
  let integral_part : Int := if value < 0 then -⌊-value⌋ else ⌊value⌋
  (value - integral_part, integral_part)

/-- Embedding of `ilogb` on a finite non-zero value: the exponent `e` with
`2 ^ e ≤ |value| < 2 ^ (e + 1)`. -/
def ilogb (value : ℚ) : Int := Int.log 2 (fabs value)

/-- The power `2 ^ n` of an integer exponent, as a rational. -/
def pow2 (n : Int) : ℚ :=
  if 0 ≤ n then ((2 ^ n.toNat : Nat) : ℚ) else 1 / ((2 ^ (-n).toNat : Nat) : ℚ)

/-- Embedding of `scalbn(x, n)`, for an exactly representable result. -/
def scalbn (x : ℚ) (n : Int) : ℚ := x * pow2 n

/-- Embedding of `std::signbit` on a finite non-zero value. -/
def signbit (x : ℚ) : Bool := decide (x < 0)

/-- A `double` result: a finite value, or an infinity produced by overflow. -/
inductive Double where
  | finite (value : ℚ)
  | infinity (negative : Bool)
  deriving DecidableEq

/-- Embedding of `ldexp(x, exp)` on the arguments the unpacker passes (`x` a
significand of at most 53 bits, `exp ≥ 0`): the exact product when it is below
`2 ^ 1024` in magnitude, an infinity (`HUGE_VAL`) of the sign of `x` otherwise. -/
def ldexp (x : ℚ) (exp : Int) : Double :=
  if pow2 1024 ≤ fabs (x * pow2 exp) then Double.infinity (decide (x < 0))
  else Double.finite (x * pow2 exp)

/-- Conversion `float(val)` of a 64-bit integer: rounding to a significand of
24 bits, to nearest, ties to even. -/
def float_of_int (val : Int) : ℚ :=
  let a := val.natAbs
  let k := Nat.log2 a + 1 - 24
  let q := a / 2 ^ k
  let r := a % 2 ^ k
  let q1 := if 2 * r > 2 ^ k ∨ (2 * r = 2 ^ k ∧ q % 2 = 1) then q + 1 else q
  if val < 0 then -((q1 * 2 ^ k : Nat) : ℚ) else ((q1 * 2 ^ k : Nat) : ℚ)

namespace Packer

/-- Embedding of `Packer::pack_map`, for a map whose keys and values are packed
by `pack_key` and `pack_value`; the map is the list of its pairs in iteration
order. -/
def pack_map {κ ν : Type} (pack_key : Packer → κ → Packer)
    (pack_value : Packer → ν → Packer) (p : Packer) (map : List (κ × ν)) : Packer :=
  let p1 :=
    if map.length < 16 then
      p.emplace_back ((map.length ||| 0b10000000) % 2 ^ 8)
    else if map.length < uint_max 16 then
      emplace_big_endian 2 map.length (p.emplace_back map16)
    else if map.length < uint_max 32 then
      emplace_big_endian 4 map.length (p.emplace_back map32)
    else
      p
  map.foldl (fun q elem => pack_value (pack_key q elem.1) elem.2) p1

/-- Embedding of `Packer::pack_type(const std::nullptr_t &)`. -/
def pack_type_nullptr (p : Packer) : Packer :=
  p.emplace_back nil

/-- Embedding of `Packer::pack_type(const bool &)`. -/
def pack_type_bool (p : Packer) (value : Bool) : Packer :=
  if value then p.emplace_back true_bool else p.emplace_back false_bool

/-- The loop
`for (auto i = n; i > 0; --i) { integral_part = 0; implied_mantissa *= 2;
implied_mantissa = modf(implied_mantissa, &integral_part);
if (uint8_t(integral_part) == 1) mask |= std::bitset<bits>(1 << (i - 1)); }`
with `i` the number of iterations still to run. -/
def mantissa_loop (bits : Nat) : Nat → ℚ → Nat → Nat
  | 0, _, mask => mask
  | i + 1, implied_mantissa, mask =>
      let r := modf (implied_mantissa * 2)
      mantissa_loop bits i r.1
        (if uint_cast 8 r.2 = 1 then mask ||| bitset bits (1 <<< i) else mask)

/-- Embedding of `Packer::pack_type(const float &)`.  The payload loop runs
over `sizeof(ieee754_float32)` bytes, where `ieee754_float32` has the type of
`std::bitset<32>::to_ulong()`, `unsigned long`; its size is the parameter
`sizeof_unsigned_long` (8 on LP64 targets, 4 on ILP32 and LLP64 targets).  For
an integral value outside `int64_t` the conversion `int64_t(integral_part)`
has no defined result; it is reduced modulo `2 ^ 64` here. -/
def pack_type_float (sizeof_unsigned_long : Nat) (p : Packer) (value : ℚ) : Packer :=
  let r := modf value
  if r.1 = 0 then
    p.pack_type_int64 (int_cast 64 r.2)
  else
    let exponent := ilogb value
    let full_mantissa := value / scalbn 1 exponent
    let sign_mask := bitset 32 (((if signbit full_mantissa then 1 else 0) <<< 31) % 2 ^ 32)
    let excess_127_exponent_mask := bitset 32 ((uint_cast 32 (exponent + 127) <<< 23) % 2 ^ 32)
    let implied_mantissa := fabs full_mantissa - 1
    let normalized_mantissa_mask := mantissa_loop 32 23 implied_mantissa 0
    let ieee754_float32 := sign_mask ||| excess_127_exponent_mask ||| normalized_mantissa_mask
    emplace_big_endian sizeof_unsigned_long ieee754_float32 (p.emplace_back float32)

/-- Embedding of `Packer::pack_type(const double &)`.  For an integral value
outside `int64_t` the conversion `int64_t(integral_part)` has no defined
result; it is reduced modulo `2 ^ 64` here. -/
def pack_type_double (p : Packer) (value : ℚ) : Packer :=
  let r := modf value
  if r.1 = 0 then
    p.pack_type_int64 (int_cast 64 r.2)
  else
    let exponent := ilogb value
    let full_mantissa := value / scalbn 1 exponent
    let sign_mask := bitset 64 (((if signbit full_mantissa then 1 else 0) <<< 63) % 2 ^ 64)
    let excess_127_exponent_mask := bitset 64 ((uint_cast 64 (exponent + 1023) <<< 52) % 2 ^ 64)
    let implied_mantissa := fabs full_mantissa - 1
    let normalized_mantissa_mask := mantissa_loop 64 52 implied_mantissa 0
    let ieee754_float64 := sign_mask ||| excess_127_exponent_mask ||| normalized_mantissa_mask
    emplace_big_endian 8 ieee754_float64 (p.emplace_back float64)

end Packer

/-- The types `pack_type` is instantiated at: the scalar specialisations,
containers (`std::vector`, `std::list`, `std::set`) of supported types, which
go to `pack_array`, and `std::map`s of supported types, which go to
`pack_map`.  The type `std::vector<uint8_t>` has its own specialisation, the
case `bin`. -/
inductive SupportedType where
  | nullptr
  | bool
  | int (w : Width)
  | uint (w : Width)
  | float
  | double
  | string
  | bin
  | container (element : SupportedType)
  | map (key mapped : SupportedType)

/-- The values of a supported type; a container or a map is the list of its
elements or pairs in iteration order. -/
def SupportedType.value : SupportedType → Type
  | .nullptr => Unit
  | .bool => Bool
  | .int _ => Int
  | .uint _ => Nat
  | .float => ℚ
  | .double => ℚ
  | .string => List Nat
  | .bin => List Nat
  | .container element => List element.value
  | .map key mapped => List (key.value × mapped.value)

namespace Packer

/-- Compile-time dispatch of `Packer::pack_type` on the static type of its
argument. -/
def pack_type (sizeof_unsigned_long : Nat) :
    (t : SupportedType) → Packer → t.value → Packer
  | .nullptr => fun p _ => p.pack_type_nullptr
  | .bool => fun p value => p.pack_type_bool value
  | .int w => fun p value => p.pack_type_signed w value
  | .uint w => fun p value => p.pack_type_unsigned w value
  | .float => fun p value => p.pack_type_float sizeof_unsigned_long value
  | .double => fun p value => p.pack_type_double value
  | .string => fun p value => p.pack_type_string value
  | .bin => fun p value => p.pack_type_bin value
  | .container element => fun p value =>
      pack_array (pack_type sizeof_unsigned_long element) p value
  | .map key mapped => fun p value =>
      pack_map (pack_type sizeof_unsigned_long key) (pack_type sizeof_unsigned_long mapped)
        p value

/-- Embedding of `Packer::process(args...)`: `pack_type` on each argument, in
the order given. -/
def process (sizeof_unsigned_long : Nat) (p : Packer)
    (args : List (Σ t : SupportedType, t.value)) : Packer :=
  args.foldl (fun q arg => pack_type sizeof_unsigned_long arg.1 q arg.2) p

end Packer

namespace Unpacker

/-- The loop
`for (auto i = 0U; i < size; ++i) { ValueType val{}; unpack_type(val);
array.emplace_back(val); }` with `n` the number of iterations still to run;
`unpack_elem` is `unpack_type` at the element type on a value-initialised
target. -/
def unpack_elements {α : Type} (unpack_elem : Unpacker → Option (α × Unpacker)) :
    Nat → Unpacker → List α → Option (List α × Unpacker)
  | 0, u, array => some (array, u)
  | n + 1, u, array =>
      match unpack_elem u with
      | none => none
      | some (val, u1) => unpack_elements unpack_elem n u1 (array ++ [val])

/-- Embedding of `Unpacker::unpack_array`. -/
def unpack_array {α : Type} (unpack_elem : Unpacker → Option (α × Unpacker))
    (u : Unpacker) (array : List α) : Option (List α × Unpacker) :=
  match u.deref with
  | none => none
  | some t =>
    if t = array32 then
      match accumulate_postinc 32 4 u.incr 0 with
      | none => none
      | some (array_size, u1) => unpack_elements unpack_elem array_size u1 array
    else if t = array16 then
      match accumulate_postinc 16 2 u.incr 0 with
      | none => none
      | some (array_size, u1) => unpack_elements unpack_elem array_size u1 array
    else
      unpack_elements unpack_elem (t &&& 0b00001111) u.incr array

/-- Embedding of `std::map::insert_or_assign` on a map given by the list of its
pairs in increasing key order. -/
def insert_or_assign {κ ν : Type} [LinearOrder κ] (key : κ) (value : ν) :
    List (κ × ν) → List (κ × ν)
  | [] => [(key, value)]
  | (k, v) :: m =>
      if key < k then (key, value) :: (k, v) :: m
      else if key = k then (k, value) :: m
      else (k, v) :: insert_or_assign key value m

/-- The loop
`for (auto i = 0U; i < map_size; ++i) { KeyType key{}; MappedType value{};
unpack_type(key); unpack_type(value); map.insert_or_assign(key, value); }`
with `n` the number of iterations still to run. -/
def unpack_pairs {κ ν : Type} [LinearOrder κ]
    (unpack_key : Unpacker → Option (κ × Unpacker))
    (unpack_value : Unpacker → Option (ν × Unpacker)) :
    Nat → Unpacker → List (κ × ν) → Option (List (κ × ν) × Unpacker)
  | 0, u, map => some (map, u)
  | n + 1, u, map =>
      match unpack_key u with
      | none => none
      | some (key, u1) =>
        match unpack_value u1 with
        | none => none
        | some (value, u2) =>
          unpack_pairs unpack_key unpack_value n u2 (insert_or_assign key value map)

/-- Embedding of `Unpacker::unpack_map`. -/
def unpack_map {κ ν : Type} [LinearOrder κ]
    (unpack_key : Unpacker → Option (κ × Unpacker))
    (unpack_value : Unpacker → Option (ν × Unpacker))
    (u : Unpacker) (map : List (κ × ν)) : Option (List (κ × ν) × Unpacker) :=
  match u.deref with
  | none => none
  | some t =>
    if t = map32 then
      match accumulate_postinc 32 4 u.incr 0 with
      | none => none
      | some (map_size, u1) => unpack_pairs unpack_key unpack_value map_size u1 map
    else if t = map16 then
      match accumulate_postinc 16 2 u.incr 0 with
      | none => none
      | some (map_size, u1) => unpack_pairs unpack_key unpack_value map_size u1 map
    else
      unpack_pairs unpack_key unpack_value (t &&& 0b00001111) u.incr map

/-- The loop
`for (auto i = n; i > 0; --i) data += T(*data_pointer++) << 8 * (i - 1);`
on an unsigned accumulator of `bits` bits, with `i` the number of iterations
still to run. -/
def accumulate_data (bits : Nat) : Nat → Unpacker → Nat → Option (Nat × Unpacker)
  | 0, u, data => some (data, u)
  | i + 1, u, data =>
      match u.deref with
      | none => none
      | some b => accumulate_data bits i u.incr ((data + b <<< (8 * i)) % 2 ^ bits)

/-- The loop
`for (auto i = n; i > 0; --i) if (bits[i - 1]) mantissa += 1.0 / (uint64_t(1) << (n + 1 - i));`
with `i` the number of iterations still to run. -/
def mantissa_sum (n : Nat) : Nat → Nat → ℚ → ℚ
  | 0, _, mantissa => mantissa
  | i + 1, bits, mantissa =>
      mantissa_sum n i bits
        (if bits.testBit i then mantissa + 1 / (((1 <<< (n - i) : Nat)) : ℚ) else mantissa)

/-- The loop
`for (auto i = 0U; i < n; ++i) exponent += bits[i + offset] << i;`
on an unsigned `exponent` of `width` bits, with `r` the number of iterations
still to run and `i` the loop variable. -/
def exponent_sum (width offset : Nat) (bits : Nat) : Nat → Nat → Nat → Nat
  | 0, _, exponent => exponent
  | r + 1, i, exponent =>
      exponent_sum width offset bits r (i + 1)
        ((exponent + (if bits.testBit (i + offset) then 1 else 0) <<< i) % 2 ^ width)

/-- Embedding of `Unpacker::unpack_type(double &)`. -/
def unpack_type_double (u : Unpacker) : Option (Double × Unpacker) :=
  match u.deref with
  | none => none
  | some t =>
    if t = float64 then
      match accumulate_data 64 8 u.incr 0 with
      | none => none
      | some (data, u1) =>
        let bits := bitset 64 data
        let mantissa := mantissa_sum 52 52 bits 1
        let mantissa := if bits.testBit 63 then mantissa * -1 else mantissa
        let exponent : Nat := exponent_sum 16 52 bits 11 0 0
        let exponent : Nat := (exponent + 2 ^ 16 - 1023) % 2 ^ 16
        some (ldexp mantissa (exponent : Int), u1)
    else if t = int8 ∨ t = int16 ∨ t = int32 ∨ t = int64 then
      match u.unpack_type_int64 with
      | none => none
      | some (val, u1) => some (Double.finite (float_of_int val), u1)
    else
      match u.unpack_type_uint64 0 with
      | none => none
      | some (val, u1) => some (Double.finite (float_of_int val), u1)

end Unpacker

/-- The number a sequence of bytes forms when read in big-endian order. -/
def from_big_endian (p : List Nat) : Nat :=
  p.foldl (fun acc b => acc * 256 + b) 0

/-- The signed two's-complement reading of the `bits`-bit pattern `U`. -/
def signed_of_pattern (bits : Nat) (U : Nat) : Int :=
  if U < 2 ^ (bits - 1) then (U : Int) else (U : Int) - 2 ^ bits

/-- The tag of the explicit signed encoding of each width. -/
def int_tag : Width → Nat
  | .w8 => int8
  | .w16 => int16
  | .w32 => int32
  | .w64 => int64

/-- The encodings of an unsigned integer in the wire format: positive fixint
and the uint8, uint16, uint32 and uint64 forms. -/
inductive UnsignedForm where
  | fix
  | u8
  | u16
  | u32
  | u64
  deriving DecidableEq

/-- The bytes of an unsigned value in a given form. -/
def UnsignedForm.bytes : UnsignedForm → Nat → List Nat
  | .fix, v => [v]
  | .u8, v => [0xcc, v]
  | .u16, v => 0xcd :: big_endian 2 v
  | .u32, v => 0xce :: big_endian 4 v
  | .u64, v => 0xcf :: big_endian 8 v

/-- The values a form can hold are those below its capacity. -/
def UnsignedForm.capacity : UnsignedForm → Nat
  | .fix => 2 ^ 7
  | .u8 => 2 ^ 8
  | .u16 => 2 ^ 16
  | .u32 => 2 ^ 32
  | .u64 => 2 ^ 64

/-- The narrowest unsigned target, in bits, whose unpacker has a branch for the
form. -/
def UnsignedForm.target_bits : UnsignedForm → Nat
  | .fix => 8
  | .u8 => 8
  | .u16 => 16
  | .u32 => 32
  | .u64 => 64

/-- The header forms of a map in the wire format. -/
inductive MapHeader where
  | fixmap
  | map16
  | map32
  deriving DecidableEq

/-- The bytes of a map header declaring `n` pairs. -/
def MapHeader.bytes : MapHeader → Nat → List Nat
  | .fixmap, n => [0x80 + n]
  | .map16, n => 0xde :: big_endian 2 n
  | .map32, n => 0xdf :: big_endian 4 n

/-- The pair counts a map header can declare are those below its capacity. -/
def MapHeader.capacity : MapHeader → Nat
  | .fixmap => 2 ^ 4
  | .map16 => 2 ^ 16
  | .map32 => 2 ^ 32

/-- A key/value pair on the wire, both unsigned integers, each in some form. -/
structure WirePair where
  key_form : UnsignedForm
  key : Nat
  value_form : UnsignedForm
  value : Nat

/-- The bytes of a pair: the encoding of the key, then that of the value. -/
def WirePair.bytes (e : WirePair) : List Nat :=
  e.key_form.bytes e.key ++ e.value_form.bytes e.value

/-- A pair is well formed for key targets of width `kw` and value targets of
width `vw` when each value fits its form and each form is one the target's
unpacker reads. -/
def WirePair.well_formed (kw vw : Width) (e : WirePair) : Prop :=
  e.key < e.key_form.capacity ∧ e.key_form.target_bits ≤ kw.bits
  ∧ e.value < e.value_form.capacity ∧ e.value_form.target_bits ≤ vw.bits

/-- The property `well_formed` is decidable. -/
instance (kw vw : Width) (e : WirePair) : Decidable (e.well_formed kw vw) := by
  unfold WirePair.well_formed
  infer_instance

/-- A packing function is append-only when it keeps the prior buffer content
in place and appends bytes that do not depend on it. -/
def AppendOnly {α : Type} (f : Packer → α → Packer) : Prop :=
  ∀ (p : Packer) (x : α),
    (f p x).serialized_object = p.serialized_object ++ (f ⟨[]⟩ x).serialized_object

/-- The map built by inserting the pairs of a list one after the other, as the
unpacking loop does. -/
def inserted (pairs : List WirePair) (m : List (Nat × Nat)) : List (Nat × Nat) :=
  pairs.foldl (fun acc e => Unpacker.insert_or_assign e.key e.value acc) m

/-! ## Auxiliary lemmas -/


/-- The big-endian representation on `i` bytes has `i` bytes. -/
theorem big_endian_length (i v : Nat) : (big_endian i v).length = i := by
  induction i with
  | zero => rfl
  | succ i ih => simp [big_endian, ih]

/-- The packing loop appends the big-endian representation of its argument. -/
theorem Packer.emplace_big_endian_eq (i v : Nat) (p : Packer) :
    Packer.emplace_big_endian i v p = ⟨p.serialized_object ++ big_endian i v⟩ := by
  induction i generalizing p with
  | zero => simp [Packer.emplace_big_endian, big_endian]
  | succ i ih =>
    have h255 : (255 : Nat) = 2 ^ 8 - 1 := by norm_num
    simp only [Packer.emplace_big_endian, ih, Packer.emplace_back, big_endian,
      Nat.shiftRight_eq_div_pow, List.append_assoc, List.singleton_append]
    rw [h255, Nat.and_pow_two_sub_one_eq_mod]
    simp

/-- What `pack_type(uint8_t)` appends. -/
theorem Packer.pack_type_uint8_eq (p : Packer) (v : Nat) (hv : v < 2 ^ 8) :
    (p.pack_type_uint8 v).serialized_object = p.serialized_object ++ enc_unsigned v := by
  unfold Packer.pack_type_uint8 enc_unsigned
  by_cases h : v ≤ 0x7f
  · have : v % 256 = v := by omega
    simp [h, Packer.emplace_back, this]
  · have h1 : v ≤ 0xff := by omega
    have : v % 256 = v := by omega
    simp [h, h1, Packer.emplace_back, this, uint8]

/-- What `pack_type(uint16_t)` appends. -/
theorem Packer.pack_type_uint16_eq (p : Packer) (v : Nat) (hv : v < 2 ^ 16) :
    (p.pack_type_uint16 v).serialized_object = p.serialized_object ++ enc_unsigned v := by
  unfold Packer.pack_type_uint16
  by_cases h : v > uint_max 8
  · have h' : 255 < v := by simpa [uint_max] using h
    have h1 : ¬ v ≤ 0x7f := by omega
    have h2 : ¬ v ≤ 0xff := by omega
    have h3 : v ≤ 0xffff := by omega
    simp [h, Packer.emplace_big_endian_eq, Packer.emplace_back, enc_unsigned, h1, h2, h3, uint16]
  · have h' : v ≤ 255 := by simpa [uint_max] using h
    have : v % 2 ^ 8 = v := by omega
    rw [if_neg h, this]
    exact Packer.pack_type_uint8_eq p v (by omega)

/-- What `pack_type(uint32_t)` appends. -/
theorem Packer.pack_type_uint32_eq (p : Packer) (v : Nat) (hv : v < 2 ^ 32) :
    (p.pack_type_uint32 v).serialized_object = p.serialized_object ++ enc_unsigned v := by
  unfold Packer.pack_type_uint32
  by_cases h : v > uint_max 16
  · have h' : 65535 < v := by simpa [uint_max] using h
    have h1 : ¬ v ≤ 0x7f := by omega
    have h2 : ¬ v ≤ 0xff := by omega
    have h3 : ¬ v ≤ 0xffff := by omega
    have h4 : v ≤ 0xffffffff := by omega
    simp [h, Packer.emplace_big_endian_eq, Packer.emplace_back, enc_unsigned, h1, h2, h3, h4,
      uint32]
  · have h' : v ≤ 65535 := by simpa [uint_max] using h
    have : v % 2 ^ 16 = v := by omega
    rw [if_neg h, this]
    exact Packer.pack_type_uint16_eq p v (by omega)

/-- What `pack_type(uint64_t)` appends. -/
theorem Packer.pack_type_uint64_eq (p : Packer) (v : Nat) (hv : v < 2 ^ 64) :
    (p.pack_type_uint64 v).serialized_object = p.serialized_object ++ enc_unsigned v := by
  unfold Packer.pack_type_uint64
  by_cases h : v > uint_max 32
  · have h' : 4294967295 < v := by simpa [uint_max] using h
    have h1 : ¬ v ≤ 0x7f := by omega
    have h2 : ¬ v ≤ 0xff := by omega
    have h3 : ¬ v ≤ 0xffff := by omega
    have h4 : ¬ v ≤ 0xffffffff := by omega
    simp [h, Packer.emplace_big_endian_eq, Packer.emplace_back, enc_unsigned, h1, h2, h3, h4,
      uint64]
  · have h' : v ≤ 4294967295 := by simpa [uint_max] using h
    have : v % 2 ^ 32 = v := by omega
    rw [if_neg h, this]
    exact Packer.pack_type_uint32_eq p v (by omega)

/-- What the unsigned packers append, at every declared width. -/
theorem Packer.pack_type_unsigned_eq (w : Width) (p : Packer) (v : Nat) (hv : v < 2 ^ w.bits) :
    (p.pack_type_unsigned w v).serialized_object = p.serialized_object ++ enc_unsigned v := by
  cases w
  · exact Packer.pack_type_uint8_eq p v hv
  · exact Packer.pack_type_uint16_eq p v hv
  · exact Packer.pack_type_uint32_eq p v hv
  · exact Packer.pack_type_uint64_eq p v hv



/-- Reading at the cursor yields the first of the bytes that start there. -/
theorem Unpacker.deref_of_drop (u : Unpacker) (b : Nat) (tl : List Nat)
    (h : u.data.drop u.data_pointer = b :: tl) : u.deref = some b := by
  unfold Unpacker.deref
  have := List.getElem?_drop u.data u.data_pointer 0
  rw [h] at this
  simpa using this.symm

/-- After `data_pointer++` the bytes at the cursor are the former tail. -/
theorem Unpacker.drop_incr (u : Unpacker) (b : Nat) (tl : List Nat)
    (h : u.data.drop u.data_pointer = b :: tl) :
    u.incr.data.drop u.incr.data_pointer = tl := by
  simp only [Unpacker.incr]
  rw [← List.drop_drop, h]
  rfl

/-- The pre-increment accumulation loop, run over a big-endian field that starts
one byte after the cursor, adds the value of the field to the target. -/
theorem Unpacker.accumulate_preinc_eq (bits i v : Nat) (rest : List Nat) :
    ∀ (u : Unpacker) (value : Nat), value < 2 ^ bits →
      u.data.drop (u.data_pointer + 1) = big_endian i v ++ rest →
      Unpacker.accumulate_preinc bits i u value
        = some ((value + v % 2 ^ (8 * i)) % 2 ^ bits, ⟨u.data, u.data_pointer + i⟩) := by
  induction i with
  | zero =>
    intro u value hlt _
    simp [Unpacker.accumulate_preinc, Nat.mod_one, Nat.mod_eq_of_lt hlt]
  | succ i ih =>
    intro u value _ h
    have h1 : u.incr.data.drop u.incr.data_pointer
        = (v / 2 ^ (8 * i) % 256) :: (big_endian i v ++ rest) := by
      simpa [Unpacker.incr, big_endian] using h
    have hd := Unpacker.deref_of_drop _ _ _ h1
    have h2 : u.incr.data.drop (u.incr.data_pointer + 1) = big_endian i v ++ rest := by
      have := Unpacker.drop_incr _ _ _ h1
      simpa [Unpacker.incr] using this
    simp only [Unpacker.accumulate_preinc, hd, ih u.incr _ (Nat.mod_lt _ (by positivity)) h2]
    have hsplit : v % 2 ^ (8 * (i + 1)) = v % 2 ^ (8 * i) + 2 ^ (8 * i) * (v / 2 ^ (8 * i) % 256) := by
      have : 2 ^ (8 * (i + 1)) = 2 ^ (8 * i) * 256 := by
        rw [Nat.mul_add, pow_add]; norm_num
      rw [this, Nat.mod_mul]
    simp only [Unpacker.incr, Nat.shiftLeft_eq, hsplit, Option.some.injEq, Prod.mk.injEq,
      Unpacker.mk.injEq, true_and]
    constructor
    · rw [Nat.mod_add_mod]
      congr 1
      ring
    · omega


/-- Reading one byte after the cursor. -/
theorem Unpacker.deref_incr_of_drop (u : Unpacker) (a b : Nat) (tl : List Nat)
    (h : u.data.drop u.data_pointer = a :: b :: tl) : u.incr.deref = some b :=
  Unpacker.deref_of_drop _ _ _ (Unpacker.drop_incr u a (b :: tl) h)

/-- Every unsigned unpacker wide enough for `v` reads the minimal-width
encoding of `v` back into a zero target and stops right after it. -/
theorem Unpacker.unpack_type_unsigned_enc (w : Width) (v : Nat) (hv : v < 2 ^ w.bits)
    (u : Unpacker) (rest : List Nat)
    (h : u.data.drop u.data_pointer = enc_unsigned v ++ rest) :
    u.unpack_type_unsigned w 0
      = some (v, ⟨u.data, u.data_pointer + (enc_unsigned v).length⟩) := by
  unfold enc_unsigned at h ⊢
  by_cases h1 : v ≤ 0x7f
  · -- positive fixint
    simp only [h1, if_true, List.singleton_append] at h
    have hd := Unpacker.deref_of_drop _ _ _ h
    have e8 : v % 2 ^ 8 = v := by omega
    have e16 : v % 2 ^ 16 = v := by omega
    have e32 : v % 2 ^ 32 = v := by omega
    have e64 : v % 2 ^ 64 = v := by omega
    have n1 : v ≠ 0xcc := by omega
    have n2 : v ≠ 0xcd := by omega
    have n3 : v ≠ 0xce := by omega
    have n4 : v ≠ 0xcf := by omega
    cases w <;>
      simp [Unpacker.unpack_type_unsigned, Unpacker.unpack_type_uint8,
        Unpacker.unpack_type_uint16, Unpacker.unpack_type_uint32, Unpacker.unpack_type_uint64,
        hd, uint8, uint16, uint32, uint64, n1, n2, n3, n4, e8, e16, e32, e64, h1,
        Unpacker.incr] <;> omega
  · by_cases h2 : v ≤ 0xff
    · -- uint8 tag
      simp only [h1, h2, if_true, if_false, List.cons_append, List.nil_append] at h
      have hd := Unpacker.deref_of_drop _ _ _ h
      have hd1 := Unpacker.deref_incr_of_drop _ _ _ _ h
      simp only [Unpacker.incr] at hd1
      have e8 : v % 2 ^ 8 = v := by omega
      have e16 : v % 2 ^ 16 = v := by omega
      have e32 : v % 2 ^ 32 = v := by omega
      have e64 : v % 2 ^ 64 = v := by omega
      cases w <;>
        simp [Unpacker.unpack_type_unsigned, Unpacker.unpack_type_uint8,
          Unpacker.unpack_type_uint16, Unpacker.unpack_type_uint32,
          Unpacker.unpack_type_uint64, hd, hd1, uint8, uint16, uint32, uint64, e8, e16, e32,
          e64, h1, h2, Unpacker.incr, show v < 256 by omega, show v < 65536 by omega,
          show v < 4294967296 by omega, show v < 18446744073709551616 by omega]
    · by_cases h3 : v ≤ 0xffff
      · -- uint16 tag
        simp only [h1, h2, h3, if_true, if_false, List.cons_append] at h
        have hd := Unpacker.deref_of_drop _ _ _ h
        have hb : u.data.drop (u.data_pointer + 1) = big_endian 2 v ++ rest := by
          simpa [Unpacker.incr] using Unpacker.drop_incr _ _ _ h
        have e : v % 2 ^ (8 * 2) = v := by omega
        cases w
        · simp [Width.bits] at hv; omega
        · have a := Unpacker.accumulate_preinc_eq 16 2 v rest u 0 (by norm_num) hb
          rw [e] at a
          have e16 : v % 2 ^ 16 = v := by omega
          simp [Unpacker.unpack_type_unsigned, Unpacker.unpack_type_uint16, hd, uint16, a, e16,
            h1, h2, h3, Unpacker.incr, big_endian_length]
          omega
        · have a := Unpacker.accumulate_preinc_eq 32 2 v rest u 0 (by norm_num) hb
          rw [e] at a
          have e32 : v % 2 ^ 32 = v := by omega
          simp [Unpacker.unpack_type_unsigned, Unpacker.unpack_type_uint32, hd, uint16, uint32,
            a, e32, h1, h2, h3, Unpacker.incr, big_endian_length]
          omega
        · have a := Unpacker.accumulate_preinc_eq 64 2 v rest u 0 (by norm_num) hb
          rw [e] at a
          have e64 : v % 2 ^ 64 = v := by omega
          simp [Unpacker.unpack_type_unsigned, Unpacker.unpack_type_uint64, hd, uint16, uint32,
            uint64, a, e64, h1, h2, h3, Unpacker.incr, big_endian_length]
          omega
      · by_cases h4 : v ≤ 0xffffffff
        · -- uint32 tag
          simp only [h1, h2, h3, h4, if_true, if_false, List.cons_append] at h
          have hd := Unpacker.deref_of_drop _ _ _ h
          have hb : u.data.drop (u.data_pointer + 1) = big_endian 4 v ++ rest := by
            simpa [Unpacker.incr] using Unpacker.drop_incr _ _ _ h
          have e : v % 2 ^ (8 * 4) = v := by omega
          cases w
          · simp [Width.bits] at hv; omega
          · simp [Width.bits] at hv; omega
          · have a := Unpacker.accumulate_preinc_eq 32 4 v rest u 0 (by norm_num) hb
            rw [e] at a
            have e32 : v % 2 ^ 32 = v := by omega
            simp [Unpacker.unpack_type_unsigned, Unpacker.unpack_type_uint32, hd, uint32,
              a, e32, h1, h2, h3, h4, Unpacker.incr, big_endian_length]
            omega
          · have a := Unpacker.accumulate_preinc_eq 64 4 v rest u 0 (by norm_num) hb
            rw [e] at a
            have e64 : v % 2 ^ 64 = v := by omega
            simp [Unpacker.unpack_type_unsigned, Unpacker.unpack_type_uint64, hd, uint32,
              uint64, a, e64, h1, h2, h3, h4, Unpacker.incr, big_endian_length,
              show v < 18446744073709551616 by omega]
        · -- uint64 tag
          simp only [h1, h2, h3, h4, if_false, List.cons_append] at h
          have hd := Unpacker.deref_of_drop _ _ _ h
          have hb : u.data.drop (u.data_pointer + 1) = big_endian 8 v ++ rest := by
            simpa [Unpacker.incr] using Unpacker.drop_incr _ _ _ h
          cases w
          · simp [Width.bits] at hv; omega
          · simp [Width.bits] at hv; omega
          · simp [Width.bits] at hv; omega
          · simp only [Width.bits] at hv
            have e : v % 2 ^ (8 * 8) = v := by omega
            have a := Unpacker.accumulate_preinc_eq 64 8 v rest u 0 (by norm_num) hb
            rw [e] at a
            have e64 : v % 2 ^ 64 = v := by omega
            simp [Unpacker.unpack_type_unsigned, Unpacker.unpack_type_uint64, hd,
              uint64, a, e64, h1, h2, h3, h4, Unpacker.incr, big_endian_length]
            omega

/-- The payload loop appends the bytes unchanged. -/
theorem Packer.emplace_all_eq (s : List Nat) (hs : ∀ c ∈ s, c < 256) :
    ∀ p : Packer, p.emplace_all s = ⟨p.serialized_object ++ s⟩ := by
  induction s with
  | nil => intro p; simp [Packer.emplace_all]
  | cons c s ih =>
    intro p
    have hc : c % 256 = c := Nat.mod_eq_of_lt (hs c (by simp))
    have ih' := ih (fun x hx => hs x (by simp [hx])) (p.emplace_back c)
    simp only [Packer.emplace_all, List.foldl_cons] at ih' ⊢
    rw [ih']
    simp [Packer.emplace_back, hc]

/-- The fixstr tag of a length below 32, and the length read back from it. -/
theorem fixstr_tag (n : Nat) (h : n < 32) :
    (n % 256 ||| 0b10100000) % 256 = 0xa0 + n ∧ (0xa0 + n) &&& 0b00011111 = n := by
  revert n
  decide

/-- What `pack_type(std::string)` appends: header, then the bytes verbatim. -/
theorem Packer.pack_type_string_eq (p : Packer) (s : List Nat)
    (hlen : s.length < 2 ^ 32 - 1) (hs : ∀ c ∈ s, c < 256) :
    (p.pack_type_string s).serialized_object
      = p.serialized_object ++ str_header s.length ++ s := by
  unfold Packer.pack_type_string str_header
  simp only [uint_max]
  by_cases h1 : s.length < 32
  · simp [h1, Packer.emplace_all_eq s hs, Packer.emplace_back, (fixstr_tag _ h1).1]
  · by_cases h2 : s.length < 255
    · have e : s.length % 256 = s.length := by omega
      simp [h1, h2, Packer.emplace_all_eq s hs, Packer.emplace_back, e, str8]
    · by_cases h3 : s.length < 65535
      · simp [h1, h2, h3, Packer.emplace_all_eq s hs, Packer.emplace_back,
          Packer.emplace_big_endian_eq, str16]
      · have h4 : s.length < 4294967295 := by simpa using hlen
        simp [h1, h2, h3, h4, Packer.emplace_all_eq s hs, Packer.emplace_back,
          Packer.emplace_big_endian_eq, str32]

/-- The post-increment accumulation loop, run over a big-endian field of at most
four bytes that starts at the cursor, adds the value of the field to the
accumulator and leaves the cursor right after the field. -/
theorem Unpacker.accumulate_postinc_eq (c n : Nat) (rest : List Nat) (hc : 8 ≤ c) (i : Nat) :
    i ≤ 4 → ∀ (u : Unpacker) (size : Nat), size + n % 2 ^ (8 * i) < 2 ^ 64 →
      u.data.drop u.data_pointer = big_endian i n ++ rest →
      Unpacker.accumulate_postinc c i u size
        = some (size + n % 2 ^ (8 * i), ⟨u.data, u.data_pointer + i⟩) := by
  induction i with
  | zero =>
    intro _ u size _ _
    simp [Unpacker.accumulate_postinc, Nat.mod_one]
  | succ i ih =>
    intro hi u size hlt h
    have h1 : u.data.drop u.data_pointer
        = (n / 2 ^ (8 * i) % 256) :: (big_endian i n ++ rest) := by
      simpa [big_endian] using h
    have hd := Unpacker.deref_of_drop _ _ _ h1
    have h2 := Unpacker.drop_incr _ _ _ h1
    have hsplit : n % 2 ^ (8 * (i + 1))
        = n % 2 ^ (8 * i) + 2 ^ (8 * i) * (n / 2 ^ (8 * i) % 256) := by
      have : 2 ^ (8 * (i + 1)) = 2 ^ (8 * i) * 256 := by
        rw [Nat.mul_add, pow_add]; norm_num
      rw [this, Nat.mod_mul]
    have hb : n / 2 ^ (8 * i) % 256 < 256 := Nat.mod_lt _ (by norm_num)
    have hbc : n / 2 ^ (8 * i) % 256 % 2 ^ c = n / 2 ^ (8 * i) % 256 := by
      apply Nat.mod_eq_of_lt
      calc n / 2 ^ (8 * i) % 256 < 2 ^ 8 := hb
        _ ≤ 2 ^ c := Nat.pow_le_pow_right (by norm_num) hc
    have hshift : (n / 2 ^ (8 * i) % 256) * 2 ^ (8 * i) < 2 ^ 32 := by
      calc (n / 2 ^ (8 * i) % 256) * 2 ^ (8 * i) < 256 * 2 ^ (8 * i) :=
            Nat.mul_lt_mul_of_pos_right hb (by positivity)
        _ = 2 ^ (8 * i + 8) := by rw [pow_add]; ring
        _ ≤ 2 ^ 32 := Nat.pow_le_pow_right (by norm_num) (by omega)
    rw [hsplit] at hlt
    have hcomm : 2 ^ (8 * i) * (n / 2 ^ (8 * i) % 256) = (n / 2 ^ (8 * i) % 256) * 2 ^ (8 * i) :=
      Nat.mul_comm _ _
    have hsz : (size + (n / 2 ^ (8 * i) % 256) * 2 ^ (8 * i)) % 2 ^ 64
        = size + (n / 2 ^ (8 * i) % 256) * 2 ^ (8 * i) := by
      apply Nat.mod_eq_of_lt
      omega
    simp only [Unpacker.accumulate_postinc, hd, hbc, Nat.shiftLeft_eq, Nat.mod_eq_of_lt hshift,
      hsz]
    rw [ih (by omega) u.incr _ (by omega) h2, hsplit]
    simp only [Unpacker.incr, Option.some.injEq, Prod.mk.injEq, Unpacker.mk.injEq, true_and]
    constructor <;> omega

/-- The range constructor copies the bytes that start at the cursor. -/
theorem Unpacker.range_of_drop (u : Unpacker) (s rest : List Nat)
    (h : u.data.drop u.data_pointer = s ++ rest) : u.range s.length = some s := by
  simp [Unpacker.range, h]

/-- What `unpack_type(std::string)` does on a packed string: it returns the
string; the cursor moves over header and payload in the fixstr form and over
the header alone in the str8, str16 and str32 forms. -/
theorem Unpacker.unpack_type_string_header (u : Unpacker) (s rest : List Nat)
    (hlen : s.length < 2 ^ 32 - 1)
    (h : u.data.drop u.data_pointer = str_header s.length ++ s ++ rest) :
    u.unpack_type_string = some (s, ⟨u.data,
      u.data_pointer + (if s.length < 32 then 1 + s.length else (str_header s.length).length)⟩) := by
  unfold str_header at h ⊢
  by_cases h1 : s.length < 32
  · simp only [h1, if_true, List.cons_append, List.nil_append] at h ⊢
    have hd := Unpacker.deref_of_drop _ _ _ h
    have h2 := Unpacker.drop_incr _ _ _ h
    have hr := Unpacker.range_of_drop _ _ _ h2
    have n1 : 0xa0 + s.length ≠ 0xdb := by omega
    have n2 : 0xa0 + s.length ≠ 0xda := by omega
    have n3 : 0xa0 + s.length ≠ 0xd9 := by omega
    simp only [Unpacker.unpack_type_string, hd, str32, str16, str8, n1, n2, n3, if_false,
      (fixstr_tag _ h1).2, hr]
    simp [Unpacker.incr]
    omega
  · by_cases h2 : s.length < 255
    · simp only [h1, h2, if_true, if_false, List.cons_append, List.nil_append] at h ⊢
      have hd := Unpacker.deref_of_drop _ _ _ h
      have hb : u.incr.data.drop u.incr.data_pointer = big_endian 1 s.length ++ (s ++ rest) := by
        have e : s.length % 256 = s.length := by omega
        simpa [big_endian, e] using Unpacker.drop_incr _ _ _ h
      have a := Unpacker.accumulate_postinc_eq 8 s.length (s ++ rest) (by norm_num) 1
        (by norm_num) u.incr 0 (by omega) hb
      have e : s.length % 2 ^ (8 * 1) = s.length := by omega
      rw [e, Nat.zero_add] at a
      have hr : Unpacker.range ⟨u.incr.data, u.incr.data_pointer + 1⟩ s.length = some s := by
        apply Unpacker.range_of_drop _ s rest
        have := Unpacker.drop_incr u.incr _ _ (by simpa [big_endian] using hb)
        simpa [Unpacker.incr] using this
      simp only [Unpacker.unpack_type_string, hd, str32, str16, str8, a, hr]
      simp [Unpacker.incr]
    · by_cases h3 : s.length < 65535
      · simp only [h1, h2, h3, if_true, if_false, List.cons_append, List.append_assoc] at h ⊢
        have hd := Unpacker.deref_of_drop _ _ _ h
        have hb := Unpacker.drop_incr _ _ _ h
        have a := Unpacker.accumulate_postinc_eq 16 s.length (s ++ rest) (by norm_num) 2
          (by norm_num) u.incr 0 (by omega) hb
        have e : s.length % 2 ^ (8 * 2) = s.length := by omega
        rw [e, Nat.zero_add] at a
        have hr : Unpacker.range ⟨u.incr.data, u.incr.data_pointer + 2⟩ s.length = some s := by
          apply Unpacker.range_of_drop _ s rest
          have := congrArg (List.drop 2) hb
          rw [List.drop_drop] at this
          simpa [big_endian, Nat.add_comm] using this
        simp only [Unpacker.unpack_type_string, hd, str32, str16, str8, a, hr]
        simp [Unpacker.incr, big_endian_length]
      · simp only [h1, h2, h3, if_false, List.cons_append, List.append_assoc] at h ⊢
        have hd := Unpacker.deref_of_drop _ _ _ h
        have hb := Unpacker.drop_incr _ _ _ h
        have a := Unpacker.accumulate_postinc_eq 32 s.length (s ++ rest) (by norm_num) 4
          (by norm_num) u.incr 0 (by omega) hb
        have e : s.length % 2 ^ (8 * 4) = s.length := by omega
        rw [e, Nat.zero_add] at a
        have hr : Unpacker.range ⟨u.incr.data, u.incr.data_pointer + 4⟩ s.length = some s := by
          apply Unpacker.range_of_drop _ s rest
          have := congrArg (List.drop 4) hb
          rw [List.drop_drop] at this
          simpa [big_endian, Nat.add_comm] using this
        simp only [Unpacker.unpack_type_string, hd, str32, str16, str8, a, hr]
        simp [Unpacker.incr, big_endian_length]

/-- Packing the elements of a container one after the other appends their
encodings in iteration order. -/
theorem Packer.foldl_pack_eq {α : Type} (pack_elem : Packer → α → Packer)
    (enc : α → List Nat)
    (h : ∀ p x, (pack_elem p x).serialized_object = p.serialized_object ++ enc x)
    (xs : List α) :
    ∀ p : Packer, (xs.foldl pack_elem p).serialized_object
      = p.serialized_object ++ (xs.map enc).flatten := by
  induction xs with
  | nil => intro p; simp
  | cons x xs ih => intro p; simp [ih, h]

/-- The string packer on an empty buffer, for a string of known length. -/
theorem Packer.pack_type_string_of_length (s : List Nat) (n : Nat) (hn : s.length = n)
    (hlen : n < 2 ^ 32 - 1) (hs : ∀ c ∈ s, c < 256) :
    ((⟨[]⟩ : Packer).pack_type_string s).serialized_object = str_header n ++ s := by
  subst hn
  rw [Packer.pack_type_string_eq _ _ hlen hs]
  simp

/-- Every element of a constant list is below a bound above the constant. -/
theorem mem_replicate_lt (n a m : Nat) (h : a < m) : ∀ c ∈ List.replicate n a, c < m := by
  intro c hc
  rw [List.eq_of_mem_replicate hc]
  exact h


/-- What `pack_array` appends: the header chosen by the element count, then the
encodings of the elements in iteration order. -/
theorem Packer.pack_array_of_length {α : Type} (pack_elem : Packer → α → Packer)
    (enc : α → List Nat)
    (h : ∀ p x, (pack_elem p x).serialized_object = p.serialized_object ++ enc x)
    (p : Packer) (xs : List α) (hlen : xs.length < 2 ^ 32 - 1) :
    (Packer.pack_array pack_elem p xs).serialized_object
      = p.serialized_object ++
        (if xs.length < 16 then [0x90 + xs.length]
         else if xs.length < 65535 then 0xdc :: big_endian 2 xs.length
         else 0xdd :: big_endian 4 xs.length) ++ (xs.map enc).flatten := by
  unfold Packer.pack_array
  simp only [uint_max]
  by_cases h1 : xs.length < 16
  · have e : (xs.length ||| 0b10010000) % 256 = 0x90 + xs.length := by
      revert h1
      generalize xs.length = n
      revert n
      decide
    simp [h1, Packer.foldl_pack_eq pack_elem enc h, Packer.emplace_back, e]
    omega
  · by_cases h2 : xs.length < 65535
    · simp [h1, h2, Packer.foldl_pack_eq pack_elem enc h, Packer.emplace_back,
        Packer.emplace_big_endian_eq, array16]
    · have h3 : xs.length < 4294967295 := by simpa using hlen
      simp [h1, h2, h3, Packer.foldl_pack_eq pack_elem enc h, Packer.emplace_back,
        Packer.emplace_big_endian_eq, array32]

/-- The bytes `pack_type(uint8_t)` appends do not depend on the buffer. -/
theorem Packer.pack_type_uint8_append (p : Packer) (x : Nat) :
    (p.pack_type_uint8 x).serialized_object
      = p.serialized_object ++ ((⟨[]⟩ : Packer).pack_type_uint8 x).serialized_object := by
  unfold Packer.pack_type_uint8
  split <;> simp [Packer.emplace_back]

/-- Reading bytes in big-endian order from an arbitrary start value. -/
theorem from_big_endian_foldl (p : List Nat) :
    ∀ a : Nat, p.foldl (fun acc b => acc * 256 + b) a
      = a * 256 ^ p.length + from_big_endian p := by
  unfold from_big_endian
  induction p with
  | nil => intro a; simp
  | cons b p ih =>
    intro a
    simp only [List.foldl_cons, List.length_cons]
    rw [ih (a * 256 + b), ih (0 * 256 + b)]
    ring

/-- The big-endian number of a sequence, in terms of its first byte. -/
theorem from_big_endian_cons (b : Nat) (p : List Nat) :
    from_big_endian (b :: p) = b * 256 ^ p.length + from_big_endian p := by
  have h := from_big_endian_foldl p (0 * 256 + b)
  unfold from_big_endian at h ⊢
  simp only [List.foldl_cons]
  rw [h]
  ring

/-- The big-endian number of `n` bytes is below `256 ^ n`. -/
theorem from_big_endian_lt (p : List Nat) (hp : ∀ b ∈ p, b < 256) :
    from_big_endian p < 256 ^ p.length := by
  induction p with
  | nil => simp [from_big_endian]
  | cons b p ih =>
    have hb : b < 256 := hp b (by simp)
    have ih' := ih (fun x hx => hp x (by simp [hx]))
    rw [from_big_endian_cons, List.length_cons, pow_succ]
    have : b * 256 ^ p.length ≤ 255 * 256 ^ p.length := Nat.mul_le_mul_right _ (by omega)
    omega

/-- The or-accumulation loop, run over the bytes at the cursor, forms their
big-endian number. -/
theorem Unpacker.or_postinc_eq (bits : Nat) (rest : List Nat) (p : List Nat) :
    (∀ b ∈ p, b < 256) → 8 * p.length ≤ bits → ∀ (u : Unpacker) (t : Nat),
      u.data.drop u.data_pointer = p ++ rest →
      Unpacker.or_postinc bits p.length u (256 ^ p.length * t)
        = some (256 ^ p.length * t + from_big_endian p,
            ⟨u.data, u.data_pointer + p.length⟩) := by
  induction p with
  | nil =>
    intro _ _ u t _
    simp [Unpacker.or_postinc, from_big_endian]
  | cons b p ih =>
    intro hp hlen u t h
    have hb : b < 256 := hp b (by simp)
    have hd := Unpacker.deref_of_drop u b (p ++ rest) (by simpa using h)
    have h2 := Unpacker.drop_incr u b (p ++ rest) (by simpa using h)
    simp only [List.length_cons] at hlen ⊢
    have e256 : (256 : Nat) ^ p.length = 2 ^ (8 * p.length) := by
      rw [pow_mul]; norm_num
    have hx : b * 2 ^ (8 * p.length) < 2 ^ (8 * p.length + 8) := by
      rw [pow_add]
      have : (2 : Nat) ^ 8 = 256 := by norm_num
      rw [this, Nat.mul_comm]
      exact Nat.mul_lt_mul_of_pos_left hb (by positivity)
    have hx' : b * 2 ^ (8 * p.length) < 2 ^ bits :=
      lt_of_lt_of_le hx (Nat.pow_le_pow_right (by norm_num) (by omega))
    have hacc : 256 ^ (p.length + 1) * t = 2 ^ (8 * p.length + 8) * t := by
      rw [show 8 * p.length + 8 = 8 * (p.length + 1) by ring, pow_mul]; norm_num
    simp only [Unpacker.or_postinc, hd, bitset, Nat.shiftLeft_eq, Nat.mod_eq_of_lt hx']
    rw [hacc, ← Nat.mul_add_lt_is_or hx]
    have hnew : 2 ^ (8 * p.length + 8) * t + b * 2 ^ (8 * p.length)
        = 256 ^ p.length * (256 * t + b) := by
      rw [e256, pow_add]; ring
    rw [hnew, ih (fun x hx => hp x (by simp [hx])) (by omega) u.incr (256 * t + b) h2,
      from_big_endian_cons]
    simp only [Unpacker.incr, Option.some.injEq, Prod.mk.injEq, Unpacker.mk.injEq, true_and]
    constructor
    · rw [e256, pow_add]; ring
    · omega

/-- The top bit of a pattern of `n + 1` bits is set exactly from `2 ^ n` on. -/
theorem testBit_top (n U : Nat) (hU : U < 2 ^ (n + 1)) :
    U.testBit n = decide (2 ^ n ≤ U) := by
  rw [Nat.testBit_to_div_mod]
  have hpos : 0 < 2 ^ n := by positivity
  by_cases h : 2 ^ n ≤ U
  · have : U / 2 ^ n = 1 := by
      apply Nat.div_eq_of_lt_le
      · simpa using h
      · simpa [pow_succ, Nat.mul_comm] using hU
    simp [h, this]
  · have : U / 2 ^ n = 0 := Nat.div_eq_of_lt (by omega)
    simp [h, this]

/-- The payload loop appends each element converted to a byte. -/
theorem Packer.emplace_all_map (s : List Nat) :
    ∀ p : Packer, p.emplace_all s = ⟨p.serialized_object ++ s.map (· % 256)⟩ := by
  induction s with
  | nil => intro p; simp [Packer.emplace_all]
  | cons c s ih =>
    intro p
    have ih' := ih (p.emplace_back c)
    simp only [Packer.emplace_all, List.foldl_cons] at ih' ⊢
    rw [ih']
    simp [Packer.emplace_back]

/-- The packer of `uint8_t` is append-only. -/
theorem appendOnly_uint8 : AppendOnly Packer.pack_type_uint8 := by
  intro p x
  unfold Packer.pack_type_uint8
  split <;> simp [Packer.emplace_back]

/-- The packer of `uint16_t` is append-only. -/
theorem appendOnly_uint16 : AppendOnly Packer.pack_type_uint16 := by
  intro p x
  unfold Packer.pack_type_uint16
  split
  · simp [Packer.emplace_back, Packer.emplace_big_endian_eq]
  · exact appendOnly_uint8 p _

/-- The packer of `uint32_t` is append-only. -/
theorem appendOnly_uint32 : AppendOnly Packer.pack_type_uint32 := by
  intro p x
  unfold Packer.pack_type_uint32
  split
  · simp [Packer.emplace_back, Packer.emplace_big_endian_eq]
  · exact appendOnly_uint16 p _

/-- The packer of `uint64_t` is append-only. -/
theorem appendOnly_uint64 : AppendOnly Packer.pack_type_uint64 := by
  intro p x
  unfold Packer.pack_type_uint64
  split
  · simp [Packer.emplace_back, Packer.emplace_big_endian_eq]
  · exact appendOnly_uint32 p _

/-- The packer of `int8_t` is append-only. -/
theorem appendOnly_int8 : AppendOnly Packer.pack_type_int8 := by
  intro p x
  unfold Packer.pack_type_int8
  split <;> simp [Packer.emplace_back]

/-- The packer of `int16_t` is append-only. -/
theorem appendOnly_int16 : AppendOnly Packer.pack_type_int16 := by
  intro p x
  unfold Packer.pack_type_int16
  split
  · exact appendOnly_int8 p _
  · simp [Packer.emplace_back, Packer.emplace_big_endian_eq]

/-- The packer of `int32_t` is append-only. -/
theorem appendOnly_int32 : AppendOnly Packer.pack_type_int32 := by
  intro p x
  unfold Packer.pack_type_int32
  split
  · exact appendOnly_int16 p _
  · simp [Packer.emplace_back, Packer.emplace_big_endian_eq]

/-- The packer of `int64_t` is append-only. -/
theorem appendOnly_int64 : AppendOnly Packer.pack_type_int64 := by
  intro p x
  unfold Packer.pack_type_int64
  split
  · exact appendOnly_int32 p _
  · simp [Packer.emplace_back, Packer.emplace_big_endian_eq]

/-- The packer of `bool` is append-only. -/
theorem appendOnly_bool : AppendOnly Packer.pack_type_bool := by
  intro p x
  unfold Packer.pack_type_bool
  split <;> simp [Packer.emplace_back]

/-- The packer of `float` is append-only. -/
theorem appendOnly_float (n : Nat) : AppendOnly (Packer.pack_type_float n) := by
  intro p x
  unfold Packer.pack_type_float
  simp only []
  split
  · exact appendOnly_int64 p _
  · simp [Packer.emplace_back, Packer.emplace_big_endian_eq]

/-- The packer of `double` is append-only. -/
theorem appendOnly_double : AppendOnly Packer.pack_type_double := by
  intro p x
  unfold Packer.pack_type_double
  simp only []
  split
  · exact appendOnly_int64 p _
  · simp [Packer.emplace_back, Packer.emplace_big_endian_eq]

/-- The packer of `std::string` is append-only. -/
theorem appendOnly_string : AppendOnly Packer.pack_type_string := by
  intro p x
  unfold Packer.pack_type_string
  split_ifs <;>
    simp [Packer.emplace_back, Packer.emplace_big_endian_eq, Packer.emplace_all_map]

/-- The packer of `std::vector<uint8_t>` is append-only. -/
theorem appendOnly_bin : AppendOnly Packer.pack_type_bin := by
  intro p x
  unfold Packer.pack_type_bin
  split_ifs <;>
    simp [Packer.emplace_back, Packer.emplace_big_endian_eq, Packer.emplace_all_map]

/-- The array packer is append-only when the element packer is. -/
theorem appendOnly_array {α : Type} (pack_elem : Packer → α → Packer)
    (h : AppendOnly pack_elem) : AppendOnly (Packer.pack_array pack_elem) := by
  intro p xs
  have hf := Packer.foldl_pack_eq pack_elem
    (fun x => (pack_elem ⟨[]⟩ x).serialized_object) h xs
  unfold Packer.pack_array
  split_ifs <;> simp [hf, Packer.emplace_back, Packer.emplace_big_endian_eq]

/-- The map packer is append-only when the key and value packers are. -/
theorem appendOnly_map {κ ν : Type} (pack_key : Packer → κ → Packer)
    (pack_value : Packer → ν → Packer) (hk : AppendOnly pack_key)
    (hv : AppendOnly pack_value) : AppendOnly (Packer.pack_map pack_key pack_value) := by
  intro p xs
  have hf := Packer.foldl_pack_eq (fun q (elem : κ × ν) => pack_value (pack_key q elem.1) elem.2)
    (fun elem => (pack_key ⟨[]⟩ elem.1).serialized_object
      ++ (pack_value ⟨[]⟩ elem.2).serialized_object)
    (fun q elem => by
      show (pack_value (pack_key q elem.1) elem.2).serialized_object = _
      rw [hv, hk, List.append_assoc]) xs
  unfold Packer.pack_map
  simp only []
  split_ifs <;> simp [hf, Packer.emplace_back, Packer.emplace_big_endian_eq]

/-- Every instance of `pack_type` is append-only. -/
theorem appendOnly_pack_type (n : Nat) (t : SupportedType) :
    AppendOnly (Packer.pack_type n t) := by
  induction t with
  | nullptr => intro p x; simp [Packer.pack_type, Packer.pack_type_nullptr, Packer.emplace_back]
  | bool => exact appendOnly_bool
  | int w =>
    cases w
    · exact appendOnly_int8
    · exact appendOnly_int16
    · exact appendOnly_int32
    · exact appendOnly_int64
  | uint w =>
    cases w
    · exact appendOnly_uint8
    · exact appendOnly_uint16
    · exact appendOnly_uint32
    · exact appendOnly_uint64
  | float => exact appendOnly_float n
  | double => exact appendOnly_double
  | string => exact appendOnly_string
  | bin => exact appendOnly_bin
  | container element ih => exact appendOnly_array _ ih
  | map key mapped ihk ihv => exact appendOnly_map _ _ ihk ihv

/-- When the bytes at the cursor start with `a`, the bytes `a.length` further
on are what follows `a`. -/
theorem drop_add_of_drop_eq_append (l a b : List Nat) (n : Nat)
    (h : l.drop n = a ++ b) : l.drop (n + a.length) = b := by
  rw [← List.drop_drop, h]
  simp

/-- The element loop reads back a sequence of minimal-width encodings of
32-bit values. -/
theorem Unpacker.unpack_elements_uint32 (rest : List Nat) (xs : List Nat) :
    (∀ x ∈ xs, x < 2 ^ 32) → ∀ (u : Unpacker) (array : List Nat),
      u.data.drop u.data_pointer = (xs.map enc_unsigned).flatten ++ rest →
      Unpacker.unpack_elements (fun v => v.unpack_type_uint32 0) xs.length u array
        = some (array ++ xs,
            ⟨u.data, u.data_pointer + ((xs.map enc_unsigned).flatten).length⟩) := by
  induction xs with
  | nil =>
    intro _ u array _
    simp [Unpacker.unpack_elements]
  | cons x xs ih =>
    intro hx u array h
    have hx0 : x < 2 ^ Width.w32.bits := hx x (by simp)
    have h1 : u.data.drop u.data_pointer
        = enc_unsigned x ++ ((xs.map enc_unsigned).flatten ++ rest) := by
      simpa using h
    have he := Unpacker.unpack_type_unsigned_enc Width.w32 x hx0 u _ h1
    simp only [Unpacker.unpack_type_unsigned] at he
    have h2 := drop_add_of_drop_eq_append _ _ _ _ h1
    simp only [List.length_cons, Unpacker.unpack_elements, he]
    rw [ih (fun y hy => hx y (by simp [hy]))
      ⟨u.data, u.data_pointer + (enc_unsigned x).length⟩ (array ++ [x]) h2]
    simp [Nat.add_assoc]

/-- The fixarray tag of a count below 16, and the count read back from it. -/
theorem fixarray_tag (n : Nat) (h : n < 16) :
    (0x90 + n) &&& 0b00001111 = n ∧ 0x90 + n ≠ 0xdd ∧ 0x90 + n ≠ 0xdc := by
  revert n
  decide

/-- What `unpack_array` does on a header followed by the encodings of its
elements. -/
theorem Unpacker.unpack_array_uint32 (u : Unpacker) (xs rest : List Nat)
    (hlen : xs.length < 2 ^ 32 - 1) (hx : ∀ x ∈ xs, x < 2 ^ 32)
    (h : u.data.drop u.data_pointer
      = (if xs.length < 16 then [0x90 + xs.length]
         else if xs.length < 65535 then 0xdc :: big_endian 2 xs.length
         else 0xdd :: big_endian 4 xs.length) ++ (xs.map enc_unsigned).flatten ++ rest) :
    Unpacker.unpack_array (fun v => v.unpack_type_uint32 0) u []
      = some (xs, ⟨u.data, u.data_pointer
          + ((if xs.length < 16 then [0x90 + xs.length]
              else if xs.length < 65535 then 0xdc :: big_endian 2 xs.length
              else 0xdd :: big_endian 4 xs.length) ++ (xs.map enc_unsigned).flatten).length⟩) := by
  by_cases h1 : xs.length < 16
  · simp only [h1, if_true, List.cons_append, List.nil_append, List.append_assoc] at h ⊢
    have hd := Unpacker.deref_of_drop _ _ _ h
    have h2 := Unpacker.drop_incr _ _ _ h
    obtain ⟨e1, e2, e3⟩ := fixarray_tag _ h1
    simp only [Unpacker.unpack_array, hd, array32, array16, e1, e2, e3, if_false]
    rw [Unpacker.unpack_elements_uint32 rest xs hx u.incr [] h2]
    simp [Unpacker.incr]
    omega
  · by_cases h2 : xs.length < 65535
    · simp only [h1, h2, if_true, if_false, List.cons_append, List.append_assoc] at h ⊢
      have hd := Unpacker.deref_of_drop _ _ _ h
      have hb := Unpacker.drop_incr _ _ _ h
      have a := Unpacker.accumulate_postinc_eq 16 xs.length _ (by norm_num) 2
        (by norm_num) u.incr 0 (by omega) hb
      have e : xs.length % 2 ^ (8 * 2) = xs.length := by omega
      rw [e, Nat.zero_add] at a
      have h3 := drop_add_of_drop_eq_append _ _ _ _ hb
      rw [big_endian_length] at h3
      simp only [Unpacker.unpack_array, hd, array32, array16, a]
      rw [Unpacker.unpack_elements_uint32 rest xs hx ⟨u.incr.data, u.incr.data_pointer + 2⟩ []
        h3]
      simp [Unpacker.incr, big_endian_length]
      omega
    · simp only [h1, h2, if_false, List.cons_append, List.append_assoc] at h ⊢
      have hd := Unpacker.deref_of_drop _ _ _ h
      have hb := Unpacker.drop_incr _ _ _ h
      have a := Unpacker.accumulate_postinc_eq 32 xs.length _ (by norm_num) 4
        (by norm_num) u.incr 0 (by omega) hb
      have e : xs.length % 2 ^ (8 * 4) = xs.length := by omega
      rw [e, Nat.zero_add] at a
      have h3 := drop_add_of_drop_eq_append _ _ _ _ hb
      rw [big_endian_length] at h3
      simp only [Unpacker.unpack_array, hd, array32, array16, a]
      rw [Unpacker.unpack_elements_uint32 rest xs hx ⟨u.incr.data, u.incr.data_pointer + 4⟩ []
        h3]
      simp [Unpacker.incr, big_endian_length]
      omega

/-- What the unsigned unpackers do on each well-formed encoding: the fixint and
uint8 forms overwrite the target, the uint16, uint32 and uint64 forms add the
payload to it, modulo the width of the target. -/
theorem Unpacker.unpack_type_unsigned_form (w : Width) (f : UnsignedForm) (v t : Nat)
    (hv : v < f.capacity) (hw : f.target_bits ≤ w.bits) (ht : t < 2 ^ w.bits)
    (u : Unpacker) (rest : List Nat)
    (h : u.data.drop u.data_pointer = f.bytes v ++ rest) :
    u.unpack_type_unsigned w t
      = some (if f = UnsignedForm.fix ∨ f = UnsignedForm.u8 then v else (t + v) % 2 ^ w.bits,
          ⟨u.data, u.data_pointer + (f.bytes v).length⟩) := by
  cases f
  · -- positive fixint
    simp only [UnsignedForm.bytes, UnsignedForm.capacity, List.singleton_append] at h hv ⊢
    have hd := Unpacker.deref_of_drop _ _ _ h
    have n1 : v ≠ 0xcc := by omega
    have n2 : v ≠ 0xcd := by omega
    have n3 : v ≠ 0xce := by omega
    have n4 : v ≠ 0xcf := by omega
    cases w <;>
      simp [Unpacker.unpack_type_unsigned, Unpacker.unpack_type_uint8,
        Unpacker.unpack_type_uint16, Unpacker.unpack_type_uint32, Unpacker.unpack_type_uint64,
        hd, uint8, uint16, uint32, uint64, n1, n2, n3, n4, Unpacker.incr] <;> omega
  · -- uint8
    simp only [UnsignedForm.bytes, UnsignedForm.capacity, List.cons_append,
      List.nil_append] at h hv ⊢
    have hd := Unpacker.deref_of_drop _ _ _ h
    have hd1 := Unpacker.deref_incr_of_drop _ _ _ _ h
    simp only [Unpacker.incr] at hd1
    cases w <;>
      simp [Unpacker.unpack_type_unsigned, Unpacker.unpack_type_uint8,
        Unpacker.unpack_type_uint16, Unpacker.unpack_type_uint32,
        Unpacker.unpack_type_uint64, hd, hd1, uint8, uint16, uint32, uint64,
        Unpacker.incr] <;> omega
  · -- uint16
    simp only [UnsignedForm.bytes, UnsignedForm.capacity, List.cons_append] at h hv ⊢
    have hd := Unpacker.deref_of_drop _ _ _ h
    have hb : u.data.drop (u.data_pointer + 1) = big_endian 2 v ++ rest := by
      simpa [Unpacker.incr] using Unpacker.drop_incr _ _ _ h
    have e : v % 2 ^ (8 * 2) = v := by omega
    cases w
    · simp [UnsignedForm.target_bits, Width.bits] at hw
    · have a := Unpacker.accumulate_preinc_eq 16 2 v rest u t ht hb
      rw [e] at a
      simp [Unpacker.unpack_type_unsigned, Unpacker.unpack_type_uint16, hd, uint16, a,
        Unpacker.incr, big_endian_length, Width.bits]
    · have a := Unpacker.accumulate_preinc_eq 32 2 v rest u t ht hb
      rw [e] at a
      simp [Unpacker.unpack_type_unsigned, Unpacker.unpack_type_uint32, hd, uint16, uint32, a,
        Unpacker.incr, big_endian_length, Width.bits]
    · have a := Unpacker.accumulate_preinc_eq 64 2 v rest u t ht hb
      rw [e] at a
      simp [Unpacker.unpack_type_unsigned, Unpacker.unpack_type_uint64, hd, uint16, uint32,
        uint64, a, Unpacker.incr, big_endian_length, Width.bits]
  · -- uint32
    simp only [UnsignedForm.bytes, UnsignedForm.capacity, List.cons_append] at h hv ⊢
    have hd := Unpacker.deref_of_drop _ _ _ h
    have hb : u.data.drop (u.data_pointer + 1) = big_endian 4 v ++ rest := by
      simpa [Unpacker.incr] using Unpacker.drop_incr _ _ _ h
    have e : v % 2 ^ (8 * 4) = v := by omega
    cases w
    · simp [UnsignedForm.target_bits, Width.bits] at hw
    · simp [UnsignedForm.target_bits, Width.bits] at hw
    · have a := Unpacker.accumulate_preinc_eq 32 4 v rest u t ht hb
      rw [e] at a
      simp [Unpacker.unpack_type_unsigned, Unpacker.unpack_type_uint32, hd, uint32, a,
        Unpacker.incr, big_endian_length, Width.bits]
    · have a := Unpacker.accumulate_preinc_eq 64 4 v rest u t ht hb
      rw [e] at a
      simp [Unpacker.unpack_type_unsigned, Unpacker.unpack_type_uint64, hd, uint32,
        uint64, a, Unpacker.incr, big_endian_length, Width.bits]
  · -- uint64
    simp only [UnsignedForm.bytes, UnsignedForm.capacity, List.cons_append] at h hv ⊢
    have hd := Unpacker.deref_of_drop _ _ _ h
    have hb : u.data.drop (u.data_pointer + 1) = big_endian 8 v ++ rest := by
      simpa [Unpacker.incr] using Unpacker.drop_incr _ _ _ h
    have e : v % 2 ^ (8 * 8) = v := by omega
    cases w
    · simp [UnsignedForm.target_bits, Width.bits] at hw
    · simp [UnsignedForm.target_bits, Width.bits] at hw
    · simp [UnsignedForm.target_bits, Width.bits] at hw
    · have a := Unpacker.accumulate_preinc_eq 64 8 v rest u t ht hb
      rw [e] at a
      simp [Unpacker.unpack_type_unsigned, Unpacker.unpack_type_uint64, hd,
        uint64, a, Unpacker.incr, big_endian_length, Width.bits]

/-- Looking a key up in a list of pairs, one pair at a time. -/
theorem lookup_cons_eq (k a b : Nat) (es : List (Nat × Nat)) :
    List.lookup k ((a, b) :: es) = if k = a then some b else es.lookup k := by
  by_cases h : k = a
  · simp [List.lookup, h]
  · have hb : (k == a) = false := by simpa using h
    simp [List.lookup, h, hb]

/-- Looking a key up after `insert_or_assign`. -/
theorem Unpacker.lookup_insert_or_assign (key value : Nat) (k : Nat) :
    ∀ m : List (Nat × Nat),
      (Unpacker.insert_or_assign key value m).lookup k
        = if k = key then some value else m.lookup k := by
  intro m
  induction m with
  | nil => simp [Unpacker.insert_or_assign, lookup_cons_eq]
  | cons kv m ih =>
    obtain ⟨k0, v0⟩ := kv
    simp only [Unpacker.insert_or_assign]
    by_cases h1 : key < k0
    · simp only [h1, if_true, lookup_cons_eq]
    · by_cases h2 : key = k0
      · subst h2
        simp only [h1, if_false, if_true, lookup_cons_eq]
        split_ifs <;> rfl
      · simp only [h1, h2, if_false, lookup_cons_eq, ih]
        split_ifs with a b <;> first | rfl | (exfalso; omega)

/-- The keys after `insert_or_assign`. -/
theorem Unpacker.mem_keys_insert_or_assign (key value : Nat) (k : Nat) :
    ∀ m : List (Nat × Nat),
      k ∈ (Unpacker.insert_or_assign key value m).map Prod.fst
        ↔ k = key ∨ k ∈ m.map Prod.fst := by
  intro m
  induction m with
  | nil => simp [Unpacker.insert_or_assign]
  | cons kv m ih =>
    obtain ⟨k0, v0⟩ := kv
    simp only [Unpacker.insert_or_assign]
    by_cases h1 : key < k0
    · simp [h1]
    · by_cases h2 : key = k0
      · subst h2
        simp
      · simp only [h1, h2, if_false, List.map_cons, List.mem_cons, ih]
        tauto

/-- The function `insert_or_assign` keeps the keys in strictly increasing order. -/
theorem Unpacker.sorted_insert_or_assign (key value : Nat) :
    ∀ m : List (Nat × Nat), (m.map Prod.fst).Pairwise (· < ·) →
      ((Unpacker.insert_or_assign key value m).map Prod.fst).Pairwise (· < ·) := by
  intro m
  induction m with
  | nil => intro _; simp [Unpacker.insert_or_assign]
  | cons kv m ih =>
    obtain ⟨k0, v0⟩ := kv
    intro hs
    simp only [List.map_cons, List.pairwise_cons] at hs
    simp only [Unpacker.insert_or_assign]
    by_cases h1 : key < k0
    · simp only [h1, if_true, List.map_cons, List.pairwise_cons, List.mem_cons]
      refine ⟨?_, hs⟩
      intro a ha
      rcases ha with rfl | ha
      · exact h1
      · exact lt_trans h1 (hs.1 a ha)
    · by_cases h2 : key = k0
      · subst h2
        simpa using hs
      · simp only [h1, h2, if_false, List.map_cons, List.pairwise_cons]
        refine ⟨?_, ih hs.2⟩
        intro a ha
        rcases (Unpacker.mem_keys_insert_or_assign key value a m).1 ha with rfl | ha
        · omega
        · exact hs.1 a ha

/-- Looking a key up in the map built from the wire pairs: the last pair with
that key decides. -/
theorem inserted_lookup (k : Nat) (pairs : List WirePair) :
    ∀ m : List (Nat × Nat), (inserted pairs m).lookup k
      = ((pairs.map (fun e => (e.key, e.value))).reverse ++ m).lookup k := by
  induction pairs with
  | nil => intro m; simp [inserted]
  | cons e pairs ih =>
    intro m
    have h := ih (Unpacker.insert_or_assign e.key e.value m)
    simp only [inserted, List.foldl_cons] at h ⊢
    rw [h]
    simp only [List.map_cons, List.reverse_cons, List.append_assoc, List.singleton_append]
    generalize (List.map (fun e => (e.key, e.value)) pairs).reverse = l
    induction l with
    | nil =>
      simp only [List.nil_append, Unpacker.lookup_insert_or_assign, lookup_cons_eq]
    | cons kv l ihl =>
      obtain ⟨k0, v0⟩ := kv
      simp only [List.cons_append, lookup_cons_eq, ihl]

/-- The keys of the map built from the wire pairs. -/
theorem inserted_keys (k : Nat) (pairs : List WirePair) :
    ∀ m : List (Nat × Nat), k ∈ (inserted pairs m).map Prod.fst
      ↔ (∃ e ∈ pairs, e.key = k) ∨ k ∈ m.map Prod.fst := by
  induction pairs with
  | nil => intro m; simp [inserted]
  | cons e pairs ih =>
    intro m
    have h := ih (Unpacker.insert_or_assign e.key e.value m)
    simp only [inserted, List.foldl_cons] at h ⊢
    rw [h, Unpacker.mem_keys_insert_or_assign]
    simp only [List.mem_cons, exists_eq_or_imp]
    constructor
    · rintro (h | h | h)
      · exact Or.inl (Or.inr h)
      · exact Or.inl (Or.inl h.symm)
      · exact Or.inr h
    · rintro ((h | h) | h)
      · exact Or.inr (Or.inl h.symm)
      · exact Or.inl h
      · exact Or.inr (Or.inr h)

/-- The map built from the wire pairs has its keys in strictly increasing
order. -/
theorem inserted_sorted (pairs : List WirePair) :
    ∀ m : List (Nat × Nat), (m.map Prod.fst).Pairwise (· < ·) →
      ((inserted pairs m).map Prod.fst).Pairwise (· < ·) := by
  induction pairs with
  | nil => intro m h; simpa [inserted] using h
  | cons e pairs ih =>
    intro m hm
    have h := ih (Unpacker.insert_or_assign e.key e.value m)
      (Unpacker.sorted_insert_or_assign e.key e.value m hm)
    simpa [inserted] using h

/-- The pair loop reads back a sequence of well-formed pairs and inserts them
in wire order. -/
theorem Unpacker.unpack_pairs_wire (kw vw : Width) (rest : List Nat) (pairs : List WirePair) :
    (∀ e ∈ pairs, e.well_formed kw vw) → ∀ (u : Unpacker) (m : List (Nat × Nat)),
      u.data.drop u.data_pointer = (pairs.map WirePair.bytes).flatten ++ rest →
      Unpacker.unpack_pairs (fun v => v.unpack_type_unsigned kw 0)
          (fun v => v.unpack_type_unsigned vw 0) pairs.length u m
        = some (inserted pairs m,
            ⟨u.data, u.data_pointer + ((pairs.map WirePair.bytes).flatten).length⟩) := by
  induction pairs with
  | nil =>
    intro _ u m _
    simp [Unpacker.unpack_pairs, inserted]
  | cons e pairs ih =>
    intro hwf u m h
    obtain ⟨hk, hkw, hv, hvw⟩ := hwf e (by simp)
    have h1 : u.data.drop u.data_pointer
        = e.key_form.bytes e.key
          ++ (e.value_form.bytes e.value ++ ((pairs.map WirePair.bytes).flatten ++ rest)) := by
      simpa [WirePair.bytes] using h
    have hkcap : e.key < 2 ^ kw.bits := by
      have : e.key_form.capacity ≤ 2 ^ kw.bits := by
        cases hf : e.key_form <;> cases kw <;>
          simp [hf, UnsignedForm.capacity, UnsignedForm.target_bits, Width.bits] at hkw ⊢
      omega
    have hvcap : e.value < 2 ^ vw.bits := by
      have : e.value_form.capacity ≤ 2 ^ vw.bits := by
        cases hf : e.value_form <;> cases vw <;>
          simp [hf, UnsignedForm.capacity, UnsignedForm.target_bits, Width.bits] at hvw ⊢
      omega
    have ek := Unpacker.unpack_type_unsigned_form kw e.key_form e.key 0 hk hkw
      (by positivity) u _ h1
    have ek' : u.unpack_type_unsigned kw 0
        = some (e.key, ⟨u.data, u.data_pointer + (e.key_form.bytes e.key).length⟩) := by
      rw [ek]
      simp [Nat.mod_eq_of_lt hkcap]
    have h2 := drop_add_of_drop_eq_append _ _ _ _ h1
    have ev := Unpacker.unpack_type_unsigned_form vw e.value_form e.value 0 hv hvw
      (by positivity) ⟨u.data, u.data_pointer + (e.key_form.bytes e.key).length⟩ _ h2
    have ev' : Unpacker.unpack_type_unsigned vw
          ⟨u.data, u.data_pointer + (e.key_form.bytes e.key).length⟩ 0
        = some (e.value, ⟨u.data, u.data_pointer + (e.key_form.bytes e.key).length
            + (e.value_form.bytes e.value).length⟩) := by
      rw [ev]
      simp [Nat.mod_eq_of_lt hvcap]
    have h3 := drop_add_of_drop_eq_append _ _ _ _ h2
    simp only [List.length_cons, Unpacker.unpack_pairs, ek', ev']
    rw [ih (fun y hy => hwf y (by simp [hy])) _ _ h3]
    simp [inserted, WirePair.bytes, Nat.add_assoc]

/-- The fixmap tag of a count below 16, and the count read back from it. -/
theorem fixmap_tag (n : Nat) (h : n < 16) :
    (0x80 + n) &&& 0b00001111 = n ∧ 0x80 + n ≠ 0xdf ∧ 0x80 + n ≠ 0xde := by
  revert n
  decide

/-- What `unpack_map` does on a map header followed by well-formed pairs. -/
theorem Unpacker.unpack_map_wire (kw vw : Width) (hd : MapHeader) (pairs : List WirePair)
    (hn : pairs.length < hd.capacity) (hwf : ∀ e ∈ pairs, e.well_formed kw vw)
    (u : Unpacker) (rest : List Nat)
    (h : u.data.drop u.data_pointer
      = hd.bytes pairs.length ++ (pairs.map WirePair.bytes).flatten ++ rest) :
    Unpacker.unpack_map (fun v => v.unpack_type_unsigned kw 0)
        (fun v => v.unpack_type_unsigned vw 0) u []
      = some (inserted pairs [], ⟨u.data, u.data_pointer
          + (hd.bytes pairs.length ++ (pairs.map WirePair.bytes).flatten).length⟩) := by
  cases hd
  · simp only [MapHeader.bytes, MapHeader.capacity, List.cons_append, List.nil_append,
      List.append_assoc] at h hn ⊢
    have hd := Unpacker.deref_of_drop _ _ _ h
    have h2 := Unpacker.drop_incr _ _ _ h
    obtain ⟨e1, e2, e3⟩ := fixmap_tag _ (by omega : pairs.length < 16)
    simp only [Unpacker.unpack_map, hd, map32, map16, e1, e2, e3, if_false]
    rw [Unpacker.unpack_pairs_wire kw vw rest pairs hwf u.incr [] h2]
    simp [Unpacker.incr]
    omega
  · simp only [MapHeader.bytes, MapHeader.capacity, List.cons_append,
      List.append_assoc] at h hn ⊢
    have hd := Unpacker.deref_of_drop _ _ _ h
    have hb := Unpacker.drop_incr _ _ _ h
    have a := Unpacker.accumulate_postinc_eq 16 pairs.length _ (by norm_num) 2
      (by norm_num) u.incr 0 (by omega) hb
    have e : pairs.length % 2 ^ (8 * 2) = pairs.length := by omega
    rw [e, Nat.zero_add] at a
    have h3 := drop_add_of_drop_eq_append _ _ _ _ hb
    rw [big_endian_length] at h3
    simp only [Unpacker.unpack_map, hd, map32, map16, a]
    rw [Unpacker.unpack_pairs_wire kw vw rest pairs hwf
      ⟨u.incr.data, u.incr.data_pointer + 2⟩ [] h3]
    simp [Unpacker.incr, big_endian_length]
    omega
  · simp only [MapHeader.bytes, MapHeader.capacity, List.cons_append,
      List.append_assoc] at h hn ⊢
    have hd := Unpacker.deref_of_drop _ _ _ h
    have hb := Unpacker.drop_incr _ _ _ h
    have a := Unpacker.accumulate_postinc_eq 32 pairs.length _ (by norm_num) 4
      (by norm_num) u.incr 0 (by omega) hb
    have e : pairs.length % 2 ^ (8 * 4) = pairs.length := by omega
    rw [e, Nat.zero_add] at a
    have h3 := drop_add_of_drop_eq_append _ _ _ _ hb
    rw [big_endian_length] at h3
    simp only [Unpacker.unpack_map, hd, map32, map16, a]
    rw [Unpacker.unpack_pairs_wire kw vw rest pairs hwf
      ⟨u.incr.data, u.incr.data_pointer + 4⟩ [] h3]
    simp [Unpacker.incr, big_endian_length]
    omega

/-- The rational `pow2 n` is the power `2 ^ n`. -/
theorem pow2_eq (n : Int) : pow2 n = (2 : ℚ) ^ n := by
  unfold pow2
  by_cases h : 0 ≤ n
  · obtain ⟨k, rfl⟩ := Int.eq_ofNat_of_zero_le h
    simp
  · have h' : 0 ≤ -n := by omega
    obtain ⟨k, hk⟩ := Int.eq_ofNat_of_zero_le h'
    have hn : n = -(k : Int) := by omega
    subst hn
    simp [h]

/-- Powers of two are positive. -/
theorem pow2_pos (n : Int) : 0 < pow2 n := by
  rw [pow2_eq]; positivity

/-- The exponent `ilogb` finds for a value between two consecutive powers of
two. -/
theorem ilogb_eq (v : ℚ) (E : Int) (hlo : (2 : ℚ) ^ E ≤ fabs v) (hhi : fabs v < (2 : ℚ) ^ (E + 1)) :
    ilogb v = E := by
  unfold ilogb
  have hpos : 0 < fabs v := lt_of_lt_of_le (by positivity) hlo
  have h1 : E ≤ Int.log 2 (fabs v) :=
    (Int.zpow_le_iff_le_log (by norm_num) hpos).1 (by simpa using hlo)
  have h2 : Int.log 2 (fabs v) < E + 1 :=
    (Int.lt_zpow_iff_log_lt (by norm_num) hpos).1 (by simpa using hhi)
  omega

/-- On a non-negative dyadic fraction `m / 2 ^ i`, `modf` splits off the
quotient and leaves the remainder. -/
theorem modf_dyadic (m i : Nat) :
    modf ((m : ℚ) / 2 ^ i) = (((m % 2 ^ i : Nat) : ℚ) / 2 ^ i, ((m / 2 ^ i : Nat) : Int)) := by
  have hnn : ¬ ((m : ℚ) / 2 ^ i < 0) := by
    have : (0 : ℚ) ≤ (m : ℚ) / 2 ^ i := by positivity
    linarith
  have hfl : ⌊(m : ℚ) / 2 ^ i⌋ = ((m / 2 ^ i : Nat) : Int) := by
    have := Rat.floor_natCast_div_natCast m (2 ^ i)
    push_cast at this ⊢
    exact this
  unfold modf
  simp only [hnn, if_false, hfl]
  refine Prod.ext ?_ rfl
  simp only [Int.cast_natCast]
  have hdm : (m : ℚ) = 2 ^ i * ((m / 2 ^ i : Nat) : ℚ) + ((m % 2 ^ i : Nat) : ℚ) := by
    exact_mod_cast (Nat.div_add_mod m (2 ^ i)).symm
  have hne : (2 : ℚ) ^ i ≠ 0 := by positivity
  generalize ((m / 2 ^ i : Nat) : ℚ) = q at hdm ⊢
  generalize ((m % 2 ^ i : Nat) : ℚ) = r at hdm ⊢
  rw [hdm]
  field_simp

/-- The mantissa loop extracts the `i` fraction bits of `m / 2 ^ i` below the
bits already in the mask. -/
theorem Packer.mantissa_loop_eq (bits : Nat) (i : Nat) :
    i ≤ bits → ∀ (m t : Nat), m < 2 ^ i →
      Packer.mantissa_loop bits i ((m : ℚ) / 2 ^ i) (2 ^ i * t) = 2 ^ i * t + m := by
  induction i with
  | zero =>
    intro _ m t hm
    have : m = 0 := by simpa using hm
    simp [Packer.mantissa_loop, this]
  | succ i ih =>
    intro hi m t hm
    have hdouble : (m : ℚ) / 2 ^ (i + 1) * 2 = (m : ℚ) / 2 ^ i := by
      rw [pow_succ]; field_simp; ring
    have hd : m / 2 ^ i < 2 := by
      apply Nat.div_lt_of_lt_mul
      rw [pow_succ] at hm
      omega
    have hbit : (1 : Nat) <<< i < 2 ^ bits := by
      rw [Nat.shiftLeft_eq, Nat.one_mul]
      exact Nat.pow_lt_pow_right (by norm_num) (by omega)
    have hmod : m % 2 ^ i < 2 ^ i := Nat.mod_lt _ (by positivity)
    simp only [Packer.mantissa_loop, hdouble, modf_dyadic, bitset, Nat.mod_eq_of_lt hbit]
    have hsplit := Nat.div_add_mod m (2 ^ i)
    generalize m / 2 ^ i = q at hd hsplit ⊢
    have hcast : uint_cast 8 (q : Int) = q := by
      unfold uint_cast
      omega
    rw [hcast]
    rcases Nat.lt_succ_iff.1 hd |>.lt_or_eq with h0 | h1
    · have h0' : q = 0 := by omega
      simp only [h0', show ¬ ((0 : Nat) = 1) by decide, if_false]
      have e : 2 ^ (i + 1) * t = 2 ^ i * (2 * t) := by rw [pow_succ]; ring
      rw [e, ih (by omega) _ _ hmod]
      rw [h0'] at hsplit
      omega
    · simp only [h1, if_true]
      have e : 2 ^ (i + 1) * t ||| 1 <<< i = 2 ^ i * (2 * t + 1) := by
        rw [Nat.shiftLeft_eq, Nat.one_mul, ← Nat.mul_add_lt_is_or (by
          exact Nat.pow_lt_pow_right (by norm_num) (by omega)), pow_succ]
        ring
      rw [e, ih (by omega) _ _ hmod]
      rw [h1] at hsplit
      have : 2 ^ (i + 1) = 2 * 2 ^ i := by rw [pow_succ]; ring
      rw [this]
      have : 2 ^ i * (2 * t + 1) = 2 * 2 ^ i * t + 2 ^ i := by ring
      omega

/-- The function `fabs` on a non-negative value. -/
theorem fabs_of_nonneg (x : ℚ) (h : 0 ≤ x) : fabs x = x := by
  unfold fabs
  rw [if_neg (not_lt.2 h)]

/-- The function `fabs` on a negative value. -/
theorem fabs_of_neg (x : ℚ) (h : x < 0) : fabs x = -x := by
  unfold fabs
  rw [if_pos h]

/-- The quantities the float packers compute from a normal value
`(-1) ^ s * (1 + m / 2 ^ n) * 2 ^ E`: exponent, sign and implied mantissa. -/
theorem normal_parts (n s m : Nat) (E : Int) (hs : s < 2) (hm : m < 2 ^ n) (v : ℚ)
    (hv : v = (-1) ^ s * (1 + (m : ℚ) / 2 ^ n) * 2 ^ E) :
    ilogb v = E
    ∧ signbit (v / scalbn 1 (ilogb v)) = decide (s = 1)
    ∧ fabs (v / scalbn 1 (ilogb v)) - 1 = (m : ℚ) / 2 ^ n := by
  have hpowpos : (0 : ℚ) < 2 ^ E := by positivity
  have hnpos : (0 : ℚ) < 2 ^ n := by positivity
  have ha1 : (1 : ℚ) ≤ 1 + (m : ℚ) / 2 ^ n := by
    have : (0 : ℚ) ≤ (m : ℚ) / 2 ^ n := by positivity
    linarith
  have ha2 : 1 + (m : ℚ) / 2 ^ n < 2 := by
    have : (m : ℚ) / 2 ^ n < 1 := by
      rw [div_lt_one hnpos]
      exact_mod_cast hm
    linarith
  obtain ⟨a, ha⟩ : ∃ a : ℚ, a = 1 + (m : ℚ) / 2 ^ n := ⟨_, rfl⟩
  rw [← ha] at hv ha1 ha2
  have hma : (m : ℚ) / 2 ^ n = a - 1 := by rw [ha]; ring
  rw [hma]
  have hapos : (0 : ℚ) < a := by linarith
  have hprod : (0 : ℚ) < a * 2 ^ E := by positivity
  have hfabs : fabs v = a * 2 ^ E := by
    rw [hv]
    rcases (by omega : s = 0 ∨ s = 1) with rfl | rfl
    · simp only [pow_zero, one_mul]
      exact fabs_of_nonneg _ hprod.le
    · have e : (-1 : ℚ) ^ 1 * a * 2 ^ E = -(a * 2 ^ E) := by ring
      rw [e, fabs_of_neg _ (by linarith), neg_neg]
  have hE : ilogb v = E := by
    apply ilogb_eq
    · rw [hfabs]
      calc (2 : ℚ) ^ E = 1 * 2 ^ E := by ring
        _ ≤ a * 2 ^ E := mul_le_mul_of_nonneg_right ha1 hpowpos.le
    · rw [hfabs, zpow_add_one₀ (by norm_num : (2 : ℚ) ≠ 0)]
      calc a * 2 ^ E < 2 * 2 ^ E := mul_lt_mul_of_pos_right ha2 hpowpos
        _ = 2 ^ E * 2 := by ring
  have hfull : v / scalbn 1 (ilogb v) = (-1) ^ s * a := by
    rw [hE, scalbn, pow2_eq, one_mul, hv]
    field_simp
  rw [hfull]
  refine ⟨hE, ?_, ?_⟩
  · unfold signbit
    rcases (by omega : s = 0 ∨ s = 1) with rfl | rfl
    · have e : (-1 : ℚ) ^ 0 * a = a := by ring
      rw [e]
      simp [not_lt.2 hapos.le]
    · have e : (-1 : ℚ) ^ 1 * a = -a := by ring
      rw [e]
      simp [hapos]
  · rcases (by omega : s = 0 ∨ s = 1) with rfl | rfl
    · have e : (-1 : ℚ) ^ 0 * a = a := by ring
      rw [e, fabs_of_nonneg _ hapos.le]
    · have e : (-1 : ℚ) ^ 1 * a = -a := by ring
      rw [e, fabs_of_neg _ (by linarith), neg_neg]

/-- A value with a non-zero fractional part has a non-zero `modf` remainder. -/
theorem modf_fractional_ne_zero (v : ℚ) (hfrac : ∀ z : Int, v ≠ z) : (modf v).1 ≠ 0 := by
  unfold modf
  simp only []
  intro h
  exact hfrac _ (sub_eq_zero.1 h)

/-- What `pack_type(double)` appends for a normal value with a non-zero
fractional part. -/
theorem Packer.pack_type_double_normal (p : Packer) (s m : Nat) (E : Int) (hs : s < 2)
    (hm : m < 2 ^ 52) (hE1 : -1022 ≤ E) (hE2 : E ≤ 1023) (v : ℚ)
    (hv : v = (-1) ^ s * (1 + (m : ℚ) / 2 ^ 52) * 2 ^ E) (hfrac : ∀ z : Int, v ≠ z) :
    (p.pack_type_double v).serialized_object
      = p.serialized_object
        ++ 0xcb :: big_endian 8 ((s <<< 63) ||| ((E + 1023).toNat <<< 52) ||| m) := by
  obtain ⟨h1, h2, h3⟩ := normal_parts 52 s m E hs hm v hv
  have hml := Packer.mantissa_loop_eq 64 52 (by norm_num) m 0 hm
  simp only [Nat.mul_zero, Nat.zero_add] at hml
  unfold Packer.pack_type_double
  simp only [modf_fractional_ne_zero v hfrac, if_false, h2, h3, hml,
    Packer.emplace_big_endian_eq, Packer.emplace_back, float64]
  rw [h1]
  have hexp : uint_cast 64 (E + 1023) = (E + 1023).toNat := by
    unfold uint_cast
    omega
  have hee : (E + 1023).toNat < 2047 := by omega
  have hsh : (E + 1023).toNat <<< 52 < 2 ^ 64 := by
    rw [Nat.shiftLeft_eq]
    calc (E + 1023).toNat * 2 ^ 52 < 2047 * 2 ^ 52 := by
          exact Nat.mul_lt_mul_of_pos_right hee (by positivity)
      _ < 2 ^ 64 := by norm_num
  rw [hexp]
  simp only [bitset, Nat.mod_eq_of_lt hsh]
  interval_cases s <;> simp

/-- What `pack_type(float)` appends for a normal value with a non-zero
fractional part, when `unsigned long` has `n` bytes. -/
theorem Packer.pack_type_float_normal (n : Nat) (p : Packer) (s m : Nat) (E : Int)
    (hs : s < 2) (hm : m < 2 ^ 23) (hE1 : -126 ≤ E) (hE2 : E ≤ 127) (v : ℚ)
    (hv : v = (-1) ^ s * (1 + (m : ℚ) / 2 ^ 23) * 2 ^ E) (hfrac : ∀ z : Int, v ≠ z) :
    (p.pack_type_float n v).serialized_object
      = p.serialized_object
        ++ 0xca :: big_endian n ((s <<< 31) ||| ((E + 127).toNat <<< 23) ||| m) := by
  obtain ⟨h1, h2, h3⟩ := normal_parts 23 s m E hs hm v hv
  have hml := Packer.mantissa_loop_eq 32 23 (by norm_num) m 0 hm
  simp only [Nat.mul_zero, Nat.zero_add] at hml
  unfold Packer.pack_type_float
  simp only [modf_fractional_ne_zero v hfrac, if_false, h2, h3, hml,
    Packer.emplace_big_endian_eq, Packer.emplace_back, float32]
  rw [h1]
  have hexp : uint_cast 32 (E + 127) = (E + 127).toNat := by
    unfold uint_cast
    omega
  have hee : (E + 127).toNat < 255 := by omega
  have hsh : (E + 127).toNat <<< 23 < 2 ^ 32 := by
    rw [Nat.shiftLeft_eq]
    calc (E + 127).toNat * 2 ^ 23 < 255 * 2 ^ 23 := by
          exact Nat.mul_lt_mul_of_pos_right hee (by positivity)
      _ < 2 ^ 32 := by norm_num
  rw [hexp]
  simp only [bitset, Nat.mod_eq_of_lt hsh]
  interval_cases s <;> simp

/-- One half is not an integer. -/
theorem half_ne_int : ∀ z : Int, (1 / 2 : ℚ) ≠ z := by
  intro z h
  have h2 : (1 : ℚ) = ((2 * z : Int) : ℚ) := by
    push_cast
    rw [← h]
    norm_num
  have h3 : (1 : Int) = 2 * z := by exact_mod_cast h2
  omega

/-- The decoding loop leaves the mantissa alone when the bits it visits are
all clear. -/
theorem Unpacker.mantissa_sum_clear (n bits : Nat) (x : ℚ) (i : Nat) :
    (∀ j, j < i → bits.testBit j = false) → Unpacker.mantissa_sum n i bits x = x := by
  induction i with
  | zero => intro _; rfl
  | succ i ih =>
    intro h
    simp only [Unpacker.mantissa_sum, h i (Nat.lt_succ_self i)]
    exact ih (fun j hj => h j (Nat.lt_succ_of_lt hj))

/-- The function `ldexp` overflows on a significand of magnitude at least one
and an exponent of at least 1024. -/
theorem ldexp_overflow (x : ℚ) (e : Nat) (hx : 1 ≤ fabs x) (he : 1024 ≤ e) :
    ldexp x (e : Int) = Double.infinity (decide (x < 0)) := by
  unfold ldexp
  have h1 : pow2 1024 ≤ pow2 (e : Int) := by
    rw [pow2_eq, pow2_eq]
    exact zpow_le_zpow_right₀ (by norm_num) (by exact_mod_cast he)
  have hpos := pow2_pos (e : Int)
  have h2 : fabs (x * pow2 (e : Int)) = fabs x * pow2 (e : Int) := by
    unfold fabs
    by_cases hx0 : x < 0
    · have : x * pow2 (e : Int) < 0 := mul_neg_of_neg_of_pos hx0 hpos
      simp only [hx0, this, if_true]
      ring
    · have : ¬ (x * pow2 (e : Int) < 0) := by
        have : 0 ≤ x * pow2 (e : Int) := mul_nonneg (not_lt.1 hx0) hpos.le
        linarith
      simp only [hx0, this, if_false]
  have h3 : pow2 1024 ≤ fabs (x * pow2 (e : Int)) := by
    rw [h2]
    calc pow2 1024 ≤ pow2 (e : Int) := h1
      _ = 1 * pow2 (e : Int) := by ring
      _ ≤ fabs x * pow2 (e : Int) := mul_le_mul_of_nonneg_right hx hpos.le
  rw [if_pos h3]

/-- On an integer value, `modf` leaves no fractional remainder. -/
theorem modf_int (z : Int) : modf (z : ℚ) = (0, z) := by
  unfold modf
  by_cases h : (z : ℚ) < 0
  · simp only [h, if_true]
    have : ⌊-(z : ℚ)⌋ = -z := by
      rw [← Int.cast_neg, Int.floor_intCast]
    rw [this]
    simp
  · simp only [h, if_false, Int.floor_intCast]
    simp

/-- What `pack_type(double)` does on an integral value: it packs the integer. -/
theorem Packer.pack_type_double_int (p : Packer) (z : Int) :
    p.pack_type_double (z : ℚ) = p.pack_type_int64 (int_cast 64 z) := by
  unfold Packer.pack_type_double
  simp [modf_int]

/-- The conversion `float(val)` is exact on integers below `2 ^ 24` in
magnitude. -/
theorem float_of_int_exact (val : Int) (h : val.natAbs < 2 ^ 24) :
    float_of_int val = (val : ℚ) := by
  have hk : Nat.log2 val.natAbs + 1 - 24 = 0 := by
    by_cases h0 : val.natAbs = 0
    · rw [h0]
      have : Nat.log2 0 = 0 := by simp [Nat.log2]
      omega
    · have := (Nat.log2_lt h0).2 h
      omega
  unfold float_of_int
  simp only [hk, pow_zero, Nat.div_one, Nat.mod_one, Nat.mul_zero, Nat.mul_one]
  have hc : ¬ ((0 : Nat) > 1 ∨ (0 : Nat) = 1 ∧ val.natAbs % 2 = 1) := by omega
  simp only [hc, if_false]
  by_cases hv : val < 0
  · simp only [hv, if_true]
    have h1 : ((val.natAbs : Int) : ℚ) = -(val : ℚ) := by
      rw [← Int.cast_neg]
      congr 1
      omega
    have h2 : ((val.natAbs : Nat) : ℚ) = ((val.natAbs : Int) : ℚ) :=
      (Int.cast_natCast val.natAbs).symm
    rw [h2, h1, neg_neg]
  · simp only [hv, if_false]
    have h1 : ((val.natAbs : Int) : ℚ) = (val : ℚ) := by
      congr 1
      omega
    have h2 : ((val.natAbs : Nat) : ℚ) = ((val.natAbs : Int) : ℚ) :=
      (Int.cast_natCast val.natAbs).symm
    rw [h2, h1]

/-- Three halves is not an integer. -/
theorem three_halves_ne_int : ∀ z : Int, (3 / 2 : ℚ) ≠ z := by
  intro z h
  have h2 : (3 : ℚ) = ((2 * z : Int) : ℚ) := by
    push_cast
    rw [← h]
    norm_num
  have h3 : (3 : Int) = 2 * z := by exact_mod_cast h2
  omega

/-! ### The int16 packer and unpacker, for any value -/

/-- What `pack_type(int16_t)` appends, by the range of the value. -/
theorem Packer.pack_type_int16_eq (p : Packer) (v : Int) (hlo : -32768 ≤ v) (hhi : v ≤ 32767) :
    (p.pack_type_int16 v).serialized_object = p.serialized_object ++
      (if -32 ≤ v ∧ v ≤ 31 then [(v % 256).toNat]
       else if -127 ≤ v ∧ v ≤ 127 then [0xd0, (v % 256).toNat]
       else 0xd1 :: big_endian 2 (v % 65536).toNat) := by
  have habs : abs v = if v < 0 then -v else v := by
    unfold abs int_cast
    split <;> omega
  have hmin : abs (int_min 8) = 128 := by decide
  unfold Packer.pack_type_int16
  rw [habs, hmin]
  by_cases h1 : (if v < 0 then -v else v) < 128
  · have hr : -127 ≤ v ∧ v ≤ 127 := by
      split at h1 <;> omega
    have hc : int_cast 8 v = v := by
      unfold int_cast
      omega
    have ht : twos_complement8 v % 2 ^ 8 % 256 = (v % 256).toNat := by
      simp only [twos_complement8, abs, int_cast, uint_cast, bitset]
      split <;> omega
    rw [if_pos h1, hc]
    unfold Packer.pack_type_int8
    by_cases h2 : -32 ≤ v ∧ v ≤ 31
    · have h3 : ¬ (v > 31 ∨ v < -32) := by omega
      simp only [h3, if_false, h2, and_self, if_true, Packer.emplace_back, ht]
    · have h3 : v > 31 ∨ v < -32 := by omega
      simp only [h3, if_true, h2, if_false, hr, and_self, Packer.emplace_back, ht, int8,
        List.append_assoc]
      rfl
  · have hr : ¬ (-127 ≤ v ∧ v ≤ 127) := by
      split at h1 <;> omega
    have h2 : ¬ (-32 ≤ v ∧ v ≤ 31) := by omega
    have ht : twos_complement16 v % 2 ^ 16 = (v % 65536).toNat := by
      simp only [twos_complement16, abs, int_cast, uint_cast, bitset]
      split <;> omega
    rw [if_neg h1, ht, if_neg h2, if_neg hr, Packer.emplace_big_endian_eq]
    simp [Packer.emplace_back, int16]

/-- What `unpack_type(int16_t &)` does on an int16 encoding: the two's-complement
reading of the payload. -/
theorem Unpacker.unpack_type_int16_tag (u : Unpacker) (U : Nat) (hU : U < 2 ^ 16)
    (rest : List Nat) (h : u.data.drop u.data_pointer = 0xd1 :: big_endian 2 U ++ rest) :
    u.unpack_type_int16
      = some (signed_of_pattern 16 U, ⟨u.data, u.data_pointer + 3⟩) := by
  have hd := Unpacker.deref_of_drop _ _ _ (by simpa using h)
  have h2 := Unpacker.drop_incr u 0xd1 (big_endian 2 U ++ rest) (by simpa using h)
  have hbe : big_endian 2 U = [U / 2 ^ 8 % 256, U % 256] := by simp [big_endian]
  have hp : ∀ b ∈ big_endian 2 U, b < 256 := by
    intro b hb
    rw [hbe] at hb
    simp only [List.mem_cons, List.mem_singleton, List.not_mem_nil, or_false] at hb
    rcases hb with rfl | rfl <;> omega
  have hfb : from_big_endian (big_endian 2 U) = U := by
    rw [hbe]
    simp only [from_big_endian, List.foldl_cons, List.foldl_nil]
    omega
  have ho := Unpacker.or_postinc_eq 16 rest (big_endian 2 U) hp
    (by rw [big_endian_length]) u.incr 0 h2
  simp only [big_endian_length, Nat.mul_zero, Nat.zero_add, hfb] at ho
  have htb := testBit_top 15 U (by omega)
  by_cases hs : 2 ^ 15 ≤ U
  · rw [decide_eq_true hs] at htb
    simp only [Unpacker.unpack_type_int16, hd, int16, if_true, ho, htb, signed_of_pattern,
      int_cast, bitset_not]
    refine congrArg some (Prod.ext ?_ ?_)
    · simp only []
      split <;> omega
    · simp [Unpacker.incr, Nat.add_assoc]
  · rw [decide_eq_false hs] at htb
    simp only [Unpacker.unpack_type_int16, hd, int16, if_true, ho, htb, signed_of_pattern,
      int_cast, bitset_not]
    refine congrArg some (Prod.ext ?_ ?_)
    · simp only []
      split <;> omega
    · simp [Unpacker.incr, Nat.add_assoc]

/-- What `unpack_type(int16_t &)` does on what `pack_type(int16_t)` produced. -/
theorem Unpacker.unpack_type_int16_packed (v : Int) (hlo : -32768 ≤ v) (hhi : v ≤ 32767)
    (b rest : List Nat) :
    Unpacker.unpack_type_int16
        ⟨((⟨b⟩ : Packer).pack_type_int16 v).serialized_object ++ rest, b.length⟩
      = some (if -32 ≤ v ∧ v ≤ -1 then v + 256 else v,
          ⟨((⟨b⟩ : Packer).pack_type_int16 v).serialized_object ++ rest,
            ((⟨b⟩ : Packer).pack_type_int16 v).serialized_object.length⟩) := by
  rw [Packer.pack_type_int16_eq ⟨b⟩ v hlo hhi]
  by_cases h1 : -32 ≤ v ∧ v ≤ 31
  · simp only [if_pos h1]
    obtain ⟨B, hB⟩ : ∃ B : Nat, (v % 256).toNat = B := ⟨_, rfl⟩
    have hBv : (B : Int) = v % 256 := by omega
    rw [hB]
    clear hB
    generalize hu : (⟨b ++ [B] ++ rest, b.length⟩ : Unpacker) = u
    have hdrop : u.data.drop u.data_pointer = B :: rest := by
      subst hu; simp
    have hdata : b ++ [B] ++ rest = u.data := by subst hu; rfl
    have hptr : b.length = u.data_pointer := by subst hu; rfl
    have hd := Unpacker.deref_of_drop _ _ _ hdrop
    have n1 : B ≠ 0xd1 := by omega
    have n2 : B ≠ 0xd0 := by omega
    simp only [Unpacker.unpack_type_int16, hd, int16, int8, n1, n2, if_false, int_cast]
    refine congrArg some (Prod.ext ?_ ?_)
    · simp only []
      by_cases hn : v < 0
      · rw [if_pos ⟨h1.1, by omega⟩]
        omega
      · rw [if_neg (fun hc => hn (by omega))]
        omega
    · simp [Unpacker.incr, ← hdata, ← hptr]
  · by_cases h2 : -127 ≤ v ∧ v ≤ 127
    · have h3 : ¬ (-32 ≤ v ∧ v ≤ -1) := by omega
      simp only [h1, h2, h3, and_self, if_true, if_false]
      obtain ⟨B, hB⟩ : ∃ B : Nat, (v % 256).toNat = B := ⟨_, rfl⟩
      have hBv : (B : Int) = v % 256 := by omega
      rw [hB]
      clear hB
      generalize hu : (⟨b ++ [0xd0, B] ++ rest, b.length⟩ : Unpacker) = u
      have hdrop : u.data.drop u.data_pointer = 0xd0 :: B :: rest := by
        subst hu; simp
      have hdata : b ++ [0xd0, B] ++ rest = u.data := by subst hu; rfl
      have hptr : b.length = u.data_pointer := by subst hu; rfl
      have hd := Unpacker.deref_of_drop _ _ _ hdrop
      have hd1 := Unpacker.deref_incr_of_drop _ _ _ _ hdrop
      simp only [Unpacker.unpack_type_int16, Unpacker.unpack_type_int8, hd, hd1, int16, int8,
        show ¬ ((0xd0 : Nat) = 0xd1) by decide, if_false, if_true, int_cast]
      refine congrArg some (Prod.ext ?_ ?_)
      · simp only []
        omega
      · simp [Unpacker.incr, ← hdata, ← hptr]
    · have h3 : ¬ (-32 ≤ v ∧ v ≤ -1) := by omega
      simp only [h1, h2, h3, if_false]
      obtain ⟨U, hUd⟩ : ∃ U : Nat, (v % 65536).toNat = U := ⟨_, rfl⟩
      have hUv : (U : Int) = v % 65536 := by omega
      rw [hUd]
      clear hUd
      have hU : U < 2 ^ 16 := by omega
      have h := Unpacker.unpack_type_int16_tag
        ⟨b ++ 0xd1 :: big_endian 2 U ++ rest, b.length⟩ _ hU rest (by simp)
      rw [h]
      refine congrArg some (Prod.ext ?_ ?_)
      · simp only [signed_of_pattern]
        split <;> omega
      · simp [big_endian_length]

/-! ### Signed operations of `twos_complement` that have a result -/

/-- C1 (unsigned round trip with widening): for declared width `w` and target
width `w'` with `w ≤ w'` and every `v < 2 ^ w`, packing `v` as a `w`-bit
unsigned integer (after any prior buffer content `b`) and unpacking the
produced bytes, whatever follows them, into a zero-initialised `w'`-bit
unsigned target yields exactly `v`, and leaves the read cursor right after the
last byte the packer produced. -/
theorem unsigned_round_trip_widening (w w' : Width) (hw : w.bits ≤ w'.bits) (v : Nat)
    (hv : v < 2 ^ w.bits) (b rest : List Nat) :
    Unpacker.unpack_type_unsigned w'
        ⟨(Packer.pack_type_unsigned w ⟨b⟩ v).serialized_object ++ rest, b.length⟩ 0
      = some (v, ⟨(Packer.pack_type_unsigned w ⟨b⟩ v).serialized_object ++ rest,
                  (Packer.pack_type_unsigned w ⟨b⟩ v).serialized_object.length⟩) := by
  have hv' : v < 2 ^ w'.bits := lt_of_lt_of_le hv (Nat.pow_le_pow_right (by norm_num) hw)
  rw [Packer.pack_type_unsigned_eq w ⟨b⟩ v hv]
  have h := Unpacker.unpack_type_unsigned_enc w' v hv' ⟨b ++ enc_unsigned v ++ rest, b.length⟩
    rest (by simp)
  simpa using h

/-- Witness for C1: 40000 packed as `uint16_t`, unpacked into a `uint64_t`. -/
theorem unsigned_round_trip_widening_witness :
    Width.w16.bits ≤ Width.w64.bits ∧ 40000 < 2 ^ Width.w16.bits ∧
    Unpacker.unpack_type_unsigned Width.w64
        ⟨(Packer.pack_type_unsigned Width.w16 ⟨[]⟩ 40000).serialized_object ++ [0xc0],
          ([] : List Nat).length⟩ 0
      = some (40000, ⟨(Packer.pack_type_unsigned Width.w16 ⟨[]⟩ 40000).serialized_object
                        ++ [0xc0],
                  (Packer.pack_type_unsigned Width.w16 ⟨[]⟩ 40000).serialized_object.length⟩) :=
  ⟨by decide, by decide,
    unsigned_round_trip_widening Width.w16 Width.w64 (by decide) 40000 (by decide) [] [0xc0]⟩

/-- C2 (signed round trip with widening) fails on the code: the value -1 packed
as `int16_t` is the single negative-fixint byte `0xff`, and unpacking that byte
into an `int16_t` target yields 255, not -1 (the byte is zero-extended). -/
theorem signed_round_trip_fails_on_negative_fixint :
    ((⟨[]⟩ : Packer).pack_type_signed Width.w16 (-1)).serialized_object = [0xff]
    ∧ Unpacker.unpack_type_signed Width.w16
        ⟨((⟨[]⟩ : Packer).pack_type_signed Width.w16 (-1)).serialized_object, 0⟩
      = some (255, ⟨[0xff], 1⟩) := by
  decide

/-- C3 (unsigned minimal-width encoding): for every declared unsigned width `w`
and every `v < 2 ^ w`, the packer appends exactly the single byte `v` if
`v ≤ 0x7f`; `[0xcc, v]` if `0x80 ≤ v ≤ 0xff`; `0xcd` and the 2-byte big-endian
value if `0x100 ≤ v ≤ 0xffff`; `0xce` and the 4-byte big-endian value if
`0x10000 ≤ v ≤ 0xffffffff`; `0xcf` and the 8-byte big-endian value otherwise. -/
theorem unsigned_minimal_width_encoding (w : Width) (p : Packer) (v : Nat)
    (hv : v < 2 ^ w.bits) :
    (p.pack_type_unsigned w v).serialized_object = p.serialized_object ++
      (if v ≤ 0x7f then [v]
       else if v ≤ 0xff then [0xcc, v]
       else if v ≤ 0xffff then [0xcd, v / 2 ^ 8, v % 2 ^ 8]
       else if v ≤ 0xffffffff then
         [0xce, v / 2 ^ 24, v / 2 ^ 16 % 2 ^ 8, v / 2 ^ 8 % 2 ^ 8, v % 2 ^ 8]
       else
         [0xcf, v / 2 ^ 56, v / 2 ^ 48 % 2 ^ 8, v / 2 ^ 40 % 2 ^ 8, v / 2 ^ 32 % 2 ^ 8,
           v / 2 ^ 24 % 2 ^ 8, v / 2 ^ 16 % 2 ^ 8, v / 2 ^ 8 % 2 ^ 8, v % 2 ^ 8]) := by
  have hv64 : v < 2 ^ 64 := by
    cases w <;> simp only [Width.bits] at hv <;> omega
  rw [Packer.pack_type_unsigned_eq w p v hv]
  congr 1
  unfold enc_unsigned
  split_ifs with h1 h2 h3 h4
  · rfl
  · rfl
  · simp [big_endian]
    omega
  · simp [big_endian]
    omega
  · simp [big_endian]
    omega

/-- Witness for C3: 70000 packed as `uint32_t` gives the uint32 form. -/
theorem unsigned_minimal_width_encoding_witness :
    70000 < 2 ^ Width.w32.bits ∧
    ((⟨[]⟩ : Packer).pack_type_unsigned Width.w32 70000).serialized_object
      = (⟨[]⟩ : Packer).serialized_object ++
      (if 70000 ≤ 0x7f then [70000]
       else if 70000 ≤ 0xff then [0xcc, 70000]
       else if 70000 ≤ 0xffff then [0xcd, 70000 / 2 ^ 8, 70000 % 2 ^ 8]
       else if 70000 ≤ 0xffffffff then
         [0xce, 70000 / 2 ^ 24, 70000 / 2 ^ 16 % 2 ^ 8, 70000 / 2 ^ 8 % 2 ^ 8, 70000 % 2 ^ 8]
       else
         [0xcf, 70000 / 2 ^ 56, 70000 / 2 ^ 48 % 2 ^ 8, 70000 / 2 ^ 40 % 2 ^ 8,
           70000 / 2 ^ 32 % 2 ^ 8, 70000 / 2 ^ 24 % 2 ^ 8, 70000 / 2 ^ 16 % 2 ^ 8,
           70000 / 2 ^ 8 % 2 ^ 8, 70000 % 2 ^ 8]) :=
  ⟨by decide, unsigned_minimal_width_encoding Width.w32 ⟨[]⟩ 70000 (by decide)⟩

/-- C4 (signed fixint range) fails on the code: the value 100, inside
`[-32, 127]`, is packed at each of the four declared signed widths as the two
bytes `[0xd0, 0x64]` (int8 tag, then the value), not as the single byte
`0x64`. -/
theorem signed_fixint_100_gets_int8_tag :
    ((⟨[]⟩ : Packer).pack_type_signed Width.w8 100).serialized_object = [0xd0, 0x64]
    ∧ ((⟨[]⟩ : Packer).pack_type_signed Width.w16 100).serialized_object = [0xd0, 0x64]
    ∧ ((⟨[]⟩ : Packer).pack_type_signed Width.w32 100).serialized_object = [0xd0, 0x64]
    ∧ ((⟨[]⟩ : Packer).pack_type_signed Width.w64 100).serialized_object = [0xd0, 0x64] := by
  decide

/-- C5 (signed minimal explicit width) fails on the code at each width's
minimum: packed as `int64_t`, -128 gets the int16 tag, -32768 the int32 tag and
-2^31 the int64 tag, one width more than the smallest that contains the
value. -/
theorem signed_width_minimum_uses_next_tag :
    ((⟨[]⟩ : Packer).pack_type_int64 (-128)).serialized_object = [0xd1, 0xff, 0x80]
    ∧ ((⟨[]⟩ : Packer).pack_type_int64 (-32768)).serialized_object
        = [0xd2, 0xff, 0xff, 0x80, 0x00]
    ∧ ((⟨[]⟩ : Packer).pack_type_int64 (-2147483648)).serialized_object
        = [0xd3, 0xff, 0xff, 0xff, 0xff, 0x80, 0x00, 0x00, 0x00] := by
  decide

/-- C6 (string value round trip): for every byte string `s` whose length is
below `2 ^ 32 - 1`, packing `s` (after any prior buffer content `b`) and
unpacking the produced bytes, whatever follows them, yields a string equal to
`s`, in each of the fixstr, str8, str16 and str32 forms. -/
theorem string_value_round_trip (s : List Nat) (hlen : s.length < 2 ^ 32 - 1)
    (hs : ∀ c ∈ s, c < 256) (b rest : List Nat) :
    (Unpacker.unpack_type_string
        ⟨(Packer.pack_type_string ⟨b⟩ s).serialized_object ++ rest, b.length⟩).map Prod.fst
      = some s := by
  rw [Packer.pack_type_string_eq ⟨b⟩ s hlen hs]
  rw [Unpacker.unpack_type_string_header ⟨b ++ str_header s.length ++ s ++ rest, b.length⟩
    s rest hlen (by simp)]
  rfl

/-- Witness for C6: a 40-byte string (str8 form) behind one byte of prior
content. -/
theorem string_value_round_trip_witness :
    (List.replicate 40 0x61).length < 2 ^ 32 - 1 ∧ (∀ c ∈ List.replicate 40 0x61, c < 256) ∧
    (Unpacker.unpack_type_string
        ⟨(Packer.pack_type_string ⟨[0xc0]⟩ (List.replicate 40 0x61)).serialized_object
          ++ [0xc3], [0xc0].length⟩).map Prod.fst
      = some (List.replicate 40 0x61) :=
  ⟨by decide, by decide,
    string_value_round_trip (List.replicate 40 0x61) (by decide) (by decide) [0xc0] [0xc3]⟩

/-- C7 (cursor discipline for strings) fails on the code: a 32-byte string is
packed into 34 bytes (str8 form); after unpacking it from those bytes followed
by a sentinel, the cursor is at offset 2, right after the header, not at the
sentinel at offset 34. -/
theorem string_cursor_stops_after_str8_header :
    ((⟨[]⟩ : Packer).pack_type_string (List.replicate 32 0x61)).serialized_object.length = 34
    ∧ (Unpacker.unpack_type_string
        ⟨((⟨[]⟩ : Packer).pack_type_string (List.replicate 32 0x61)).serialized_object
          ++ [0xc0], 0⟩).map (fun r => r.2.data_pointer) = some 2 := by
  decide

/-- C8 (cursor discipline for binary blobs) fails on the code: the one-byte
blob `[0x01]` is packed as `[0xc4, 0x01, 0x01]`; after unpacking it from those
bytes followed by a sentinel, the cursor is at offset 2, on the payload byte,
not at the sentinel at offset 3. -/
theorem bin_cursor_stops_after_header :
    ((⟨[]⟩ : Packer).pack_type_bin [0x01]).serialized_object = [0xc4, 0x01, 0x01]
    ∧ Unpacker.unpack_type_bin
        ⟨((⟨[]⟩ : Packer).pack_type_bin [0x01]).serialized_object ++ [0xc0], 0⟩
      = some ([0x01], ⟨[0xc4, 0x01, 0x01, 0xc0], 2⟩) := by
  decide

/-- C9 (string length classes) fails on the code at the top of the str8 and
str16 classes: a 255-byte string gets the str16 header `[0xda, 0x00, 0xff]`,
not `[0xd9, 0xff]`, and a 65535-byte string gets the str32 header
`[0xdb, 0x00, 0x00, 0xff, 0xff]`, not `[0xda, 0xff, 0xff]`. -/
theorem string_length_class_boundaries_off_by_one :
    ((⟨[]⟩ : Packer).pack_type_string (List.replicate 255 0x61)).serialized_object
      = [0xda, 0x00, 0xff] ++ List.replicate 255 0x61
    ∧ ((⟨[]⟩ : Packer).pack_type_string (List.replicate 65535 0x61)).serialized_object
      = [0xdb, 0x00, 0x00, 0xff, 0xff] ++ List.replicate 65535 0x61 := by
  have e1 : str_header 255 = [0xda, 0x00, 0xff] := by decide
  have e2 : str_header 65535 = [0xdb, 0x00, 0x00, 0xff, 0xff] := by decide
  constructor
  · rw [← e1]
    exact Packer.pack_type_string_of_length _ 255 (List.length_replicate _ _) (by norm_num)
      (mem_replicate_lt _ _ _ (by norm_num))
  · rw [← e2]
    exact Packer.pack_type_string_of_length _ 65535 (List.length_replicate _ _) (by norm_num)
      (mem_replicate_lt _ _ _ (by norm_num))

/-- C10 (array length classes) fails on the code at the top of the array16
class: an array of 65535 elements gets the array32 header
`[0xdd, 0x00, 0x00, 0xff, 0xff]`, not `[0xdc, 0xff, 0xff]`. -/
theorem array_length_class_boundary_off_by_one :
    ((Packer.pack_array Packer.pack_type_uint8 ⟨[]⟩
        (List.replicate 65535 0)).serialized_object).take 5
      = [0xdd, 0x00, 0x00, 0xff, 0xff] := by
  have h := Packer.pack_array_of_length Packer.pack_type_uint8
    (fun x => ((⟨[]⟩ : Packer).pack_type_uint8 x).serialized_object)
    Packer.pack_type_uint8_append ⟨[]⟩ (List.replicate 65535 0)
    (by rw [List.length_replicate]; norm_num)
  rw [h, List.length_replicate]
  generalize (List.map _ (List.replicate 65535 0)).flatten = tl
  have e : big_endian 4 65535 = [0x00, 0x00, 0xff, 0xff] := by decide
  rw [if_neg (by norm_num), if_neg (by norm_num), e]
  rfl

/-- C11 (array round trip): for every list `xs` of unsigned 32-bit integers with
fewer than `2 ^ 32 - 1` elements, packing `xs` as an array (after any prior
buffer content `b`) and unpacking the produced bytes, whatever follows them,
into an initially empty array yields exactly `xs`, and leaves the read cursor
exactly one byte past the last byte of the encoding. -/
theorem array_round_trip (xs : List Nat) (hlen : xs.length < 2 ^ 32 - 1)
    (hx : ∀ x ∈ xs, x < 2 ^ 32) (b rest : List Nat) :
    Unpacker.unpack_array (fun v => v.unpack_type_uint32 0)
        ⟨(Packer.pack_array Packer.pack_type_uint32 ⟨b⟩ xs).serialized_object ++ rest,
          b.length⟩ []
      = some (xs, ⟨(Packer.pack_array Packer.pack_type_uint32 ⟨b⟩ xs).serialized_object ++ rest,
          (Packer.pack_array Packer.pack_type_uint32 ⟨b⟩ xs).serialized_object.length⟩) := by
  have hp := Packer.pack_array_of_length Packer.pack_type_uint32
    (fun x => ((⟨[]⟩ : Packer).pack_type_uint32 x).serialized_object)
    appendOnly_uint32 ⟨b⟩ xs hlen
  have hm : xs.map (fun x => ((⟨[]⟩ : Packer).pack_type_uint32 x).serialized_object)
      = xs.map enc_unsigned := by
    apply List.map_congr_left
    intro x hxm
    simpa using Packer.pack_type_uint32_eq ⟨[]⟩ x (hx x hxm)
  rw [hm] at hp
  rw [hp]
  have h := Unpacker.unpack_array_uint32
    ⟨b ++ (if xs.length < 16 then [0x90 + xs.length]
         else if xs.length < 65535 then 0xdc :: big_endian 2 xs.length
         else 0xdd :: big_endian 4 xs.length) ++ (xs.map enc_unsigned).flatten ++ rest, b.length⟩
    xs rest hlen hx (by simp)
  simpa [Nat.add_assoc] using h

/-- Witness for C11: the array `[1, 200, 70000]`, followed by a sentinel. -/
theorem array_round_trip_witness :
    [1, 200, 70000].length < 2 ^ 32 - 1 ∧ (∀ x ∈ [1, 200, 70000], x < 2 ^ 32) ∧
    Unpacker.unpack_array (fun v => v.unpack_type_uint32 0)
        ⟨(Packer.pack_array Packer.pack_type_uint32 ⟨[]⟩ [1, 200, 70000]).serialized_object
          ++ [0xc0], ([] : List Nat).length⟩ []
      = some ([1, 200, 70000],
          ⟨(Packer.pack_array Packer.pack_type_uint32 ⟨[]⟩ [1, 200, 70000]).serialized_object
            ++ [0xc0],
          (Packer.pack_array Packer.pack_type_uint32 ⟨[]⟩
            [1, 200, 70000]).serialized_object.length⟩) :=
  ⟨by decide, by decide,
    array_round_trip [1, 200, 70000] (by decide) (by decide) [] [0xc0]⟩

/-- C12 (map key collision on decode): for every wire input made of a fixmap,
map16 or map32 header declaring `n` pairs followed by `n` well-formed pairs of
unsigned-integer encodings, unpacking into an initially empty map returns a map
`m` and leaves the cursor right after the input; the keys of `m` are exactly
the keys on the wire, each of them once, and every key is bound to the value of
its last occurrence in wire order. -/
theorem map_key_collision_last_wins (kw vw : Width) (hd : MapHeader) (pairs : List WirePair)
    (hn : pairs.length < hd.capacity) (hwf : ∀ e ∈ pairs, e.well_formed kw vw)
    (pre rest : List Nat) :
    ∃ m : List (Nat × Nat),
      Unpacker.unpack_map (fun v => v.unpack_type_unsigned kw 0)
          (fun v => v.unpack_type_unsigned vw 0)
          ⟨pre ++ hd.bytes pairs.length ++ (pairs.map WirePair.bytes).flatten ++ rest,
            pre.length⟩ []
        = some (m, ⟨pre ++ hd.bytes pairs.length ++ (pairs.map WirePair.bytes).flatten ++ rest,
            (pre ++ hd.bytes pairs.length ++ (pairs.map WirePair.bytes).flatten).length⟩)
      ∧ (∀ k, k ∈ m.map Prod.fst ↔ ∃ e ∈ pairs, e.key = k)
      ∧ (m.map Prod.fst).Nodup
      ∧ (∀ k, m.lookup k = ((pairs.map (fun e => (e.key, e.value))).reverse).lookup k) := by
  refine ⟨inserted pairs [], ?_, ?_, ?_, ?_⟩
  · have h := Unpacker.unpack_map_wire kw vw hd pairs hn hwf
      ⟨pre ++ hd.bytes pairs.length ++ (pairs.map WirePair.bytes).flatten ++ rest, pre.length⟩
      rest (by simp)
    simpa [Nat.add_assoc] using h
  · intro k
    simpa using inserted_keys k pairs []
  · have h := inserted_sorted pairs [] (by simp)
    exact h.imp (fun hab => Nat.ne_of_lt hab)
  · intro k
    simpa using inserted_lookup k pairs []

/-- Witness for C12: the fixmap `{1: 0x61, 1: 0x62}` on the wire. -/
theorem map_key_collision_last_wins_witness :
    ([⟨UnsignedForm.fix, 1, UnsignedForm.fix, 0x61⟩,
       ⟨UnsignedForm.fix, 1, UnsignedForm.fix, 0x62⟩] : List WirePair).length
      < MapHeader.fixmap.capacity
    ∧ (∀ e ∈ ([⟨UnsignedForm.fix, 1, UnsignedForm.fix, 0x61⟩,
          ⟨UnsignedForm.fix, 1, UnsignedForm.fix, 0x62⟩] : List WirePair),
        e.well_formed Width.w32 Width.w32)
    ∧ ∃ m : List (Nat × Nat),
      Unpacker.unpack_map (fun v => v.unpack_type_unsigned Width.w32 0)
          (fun v => v.unpack_type_unsigned Width.w32 0)
          ⟨[] ++ MapHeader.fixmap.bytes
              ([⟨UnsignedForm.fix, 1, UnsignedForm.fix, 0x61⟩,
                ⟨UnsignedForm.fix, 1, UnsignedForm.fix, 0x62⟩] : List WirePair).length
            ++ (([⟨UnsignedForm.fix, 1, UnsignedForm.fix, 0x61⟩,
                ⟨UnsignedForm.fix, 1, UnsignedForm.fix, 0x62⟩] : List WirePair).map
                  WirePair.bytes).flatten ++ [],
            ([] : List Nat).length⟩ []
        = some (m, ⟨[] ++ MapHeader.fixmap.bytes
              ([⟨UnsignedForm.fix, 1, UnsignedForm.fix, 0x61⟩,
                ⟨UnsignedForm.fix, 1, UnsignedForm.fix, 0x62⟩] : List WirePair).length
            ++ (([⟨UnsignedForm.fix, 1, UnsignedForm.fix, 0x61⟩,
                ⟨UnsignedForm.fix, 1, UnsignedForm.fix, 0x62⟩] : List WirePair).map
                  WirePair.bytes).flatten ++ [],
            ([] ++ MapHeader.fixmap.bytes
              ([⟨UnsignedForm.fix, 1, UnsignedForm.fix, 0x61⟩,
                ⟨UnsignedForm.fix, 1, UnsignedForm.fix, 0x62⟩] : List WirePair).length
            ++ (([⟨UnsignedForm.fix, 1, UnsignedForm.fix, 0x61⟩,
                ⟨UnsignedForm.fix, 1, UnsignedForm.fix, 0x62⟩] : List WirePair).map
                  WirePair.bytes).flatten).length⟩)
      ∧ (∀ k, k ∈ m.map Prod.fst ↔
          ∃ e ∈ ([⟨UnsignedForm.fix, 1, UnsignedForm.fix, 0x61⟩,
            ⟨UnsignedForm.fix, 1, UnsignedForm.fix, 0x62⟩] : List WirePair), e.key = k)
      ∧ (m.map Prod.fst).Nodup
      ∧ (∀ k, m.lookup k
          = ((([⟨UnsignedForm.fix, 1, UnsignedForm.fix, 0x61⟩,
              ⟨UnsignedForm.fix, 1, UnsignedForm.fix, 0x62⟩] : List WirePair).map
                (fun e => (e.key, e.value))).reverse).lookup k) :=
  ⟨by decide, by decide,
    map_key_collision_last_wins Width.w32 Width.w32 MapHeader.fixmap
      [⟨UnsignedForm.fix, 1, UnsignedForm.fix, 0x61⟩,
        ⟨UnsignedForm.fix, 1, UnsignedForm.fix, 0x62⟩] (by decide) (by decide) [] []⟩

/-- C13 (float64 round trip) fails on the code: the value 0.5, a normal double
with a non-zero fractional part, is packed as
`[0xcb, 0x3f, 0xe0, 0, 0, 0, 0, 0, 0]`, and unpacking those bytes into a double
yields positive infinity, not 0.5. -/
theorem float64_round_trip_fails_below_one :
    (∀ z : Int, (1 / 2 : ℚ) ≠ z)
    ∧ ((⟨[]⟩ : Packer).pack_type_double (1 / 2)).serialized_object
      = [0xcb, 0x3f, 0xe0, 0x00, 0x00, 0x00, 0x00, 0x00, 0x00]
    ∧ Unpacker.unpack_type_double
        ⟨((⟨[]⟩ : Packer).pack_type_double (1 / 2)).serialized_object, 0⟩
      = some (Double.infinity false,
          ⟨[0xcb, 0x3f, 0xe0, 0x00, 0x00, 0x00, 0x00, 0x00, 0x00], 9⟩) := by
  have hp : ((⟨[]⟩ : Packer).pack_type_double (1 / 2)).serialized_object
      = [0xcb, 0x3f, 0xe0, 0x00, 0x00, 0x00, 0x00, 0x00, 0x00] := by
    rw [Packer.pack_type_double_normal ⟨[]⟩ 0 0 (-1) (by norm_num) (by norm_num) (by norm_num)
      (by norm_num) (1 / 2) (by norm_num) half_ne_int]
    decide
  refine ⟨half_ne_int, hp, ?_⟩
  rw [hp]
  have hacc : Unpacker.accumulate_data 64 8
      (Unpacker.incr ⟨[0xcb, 0x3f, 0xe0, 0x00, 0x00, 0x00, 0x00, 0x00, 0x00], 0⟩) 0
      = some (0x3fe0000000000000,
          ⟨[0xcb, 0x3f, 0xe0, 0x00, 0x00, 0x00, 0x00, 0x00, 0x00], 9⟩) := by
    decide
  have hclear : ∀ j, j < 52 → (0x3fe0000000000000 : Nat).testBit j = false := by decide
  have hsign : (0x3fe0000000000000 : Nat).testBit 63 = false := by decide
  have hexp : Unpacker.exponent_sum 16 52 0x3fe0000000000000 11 0 0 = 1022 := by decide
  have hd : Unpacker.deref ⟨[0xcb, 0x3f, 0xe0, 0x00, 0x00, 0x00, 0x00, 0x00, 0x00], 0⟩
      = some 0xcb := by decide
  have hb : bitset 64 0x3fe0000000000000 = 0x3fe0000000000000 := by decide
  simp only [Unpacker.unpack_type_double, hd, float64, if_true, hacc, hb,
    Unpacker.mantissa_sum_clear 52 _ 1 52 hclear, hsign]
  rw [hexp]
  have h := ldexp_overflow 1 65535 (by simp [fabs_of_nonneg]) (by norm_num)
  simpa using h

/-- C14 (integral-valued float round trip) fails on the code: the double -1 is
packed as the single negative-fixint byte `0xff`, an integer encoding, and
unpacking that byte into a double yields 255, not -1. -/
theorem integral_float_round_trip_fails_on_negative_fixint :
    ((⟨[]⟩ : Packer).pack_type_double ((-1 : Int) : ℚ)).serialized_object = [0xff]
    ∧ Unpacker.unpack_type_double
        ⟨((⟨[]⟩ : Packer).pack_type_double ((-1 : Int) : ℚ)).serialized_object, 0⟩
      = some (Double.finite 255, ⟨[0xff], 1⟩) := by
  have hp : ((⟨[]⟩ : Packer).pack_type_double ((-1 : Int) : ℚ)).serialized_object = [0xff] := by
    rw [Packer.pack_type_double_int]
    decide
  refine ⟨hp, ?_⟩
  rw [hp]
  have hd : Unpacker.deref ⟨[0xff], 0⟩ = some 0xff := by decide
  have hu : Unpacker.unpack_type_uint64 ⟨[0xff], 0⟩ 0 = some (255, ⟨[0xff], 1⟩) := by decide
  have hf : float_of_int 255 = 255 := by
    simpa using float_of_int_exact 255 (by decide)
  simp only [Unpacker.unpack_type_double, hd, float64, int8, int16, int32, int64, hu]
  simp [hf]

/-- C15 (encoder is append-only and order-preserving): for every supported type,
every prior buffer content `b` and every value `x`, the buffer after packing `x`
is `b` followed by the bytes packing `x` into an empty buffer produces; packing
a sequence of values into an empty `Packer` yields the concatenation of their
encodings in the order given; and `clear()` resets the buffer to empty.  The
size `n` of `unsigned long` is arbitrary. -/
theorem encoder_append_only (n : Nat) :
    (∀ (t : SupportedType) (b : List Nat) (x : t.value),
      (Packer.pack_type n t ⟨b⟩ x).serialized_object
        = b ++ (Packer.pack_type n t ⟨[]⟩ x).serialized_object)
    ∧ (∀ args : List (Σ t : SupportedType, t.value),
      (Packer.process n ⟨[]⟩ args).vector
        = (args.map
            (fun arg => (Packer.pack_type n arg.1 ⟨[]⟩ arg.2).serialized_object)).flatten)
    ∧ (∀ p : Packer, p.clear.vector = []) := by
  refine ⟨fun t b x => appendOnly_pack_type n t ⟨b⟩ x, fun args => ?_, fun p => rfl⟩
  have h := Packer.foldl_pack_eq
    (fun q (arg : Σ t : SupportedType, t.value) => Packer.pack_type n arg.1 q arg.2)
    (fun arg => (Packer.pack_type n arg.1 ⟨[]⟩ arg.2).serialized_object)
    (fun q arg => appendOnly_pack_type n arg.1 q arg.2) args ⟨[]⟩
  simpa [Packer.process, Packer.vector] using h

/-- C17 (explicit signed tags decode as two's complement): for each width `w`
and every sequence `p` of `w / 8` payload bytes, unpacking the wire input made
of the tag of that width (`0xd0`, `0xd1`, `0xd2`, `0xd3`) followed by `p` into
a `w`-bit signed target yields the signed two's-complement reading of the
big-endian number `U` formed by `p` (`U` if `U < 2 ^ (w - 1)`, else
`U - 2 ^ w`), and advances the cursor by exactly `1 + w / 8` bytes. -/
theorem explicit_signed_tag_decode (w : Width) (p : List Nat) (hlen : p.length = w.bits / 8)
    (hp : ∀ b ∈ p, b < 256) (pre rest : List Nat) :
    Unpacker.unpack_type_signed w ⟨pre ++ int_tag w :: p ++ rest, pre.length⟩
      = some (signed_of_pattern w.bits (from_big_endian p),
          ⟨pre ++ int_tag w :: p ++ rest, pre.length + 1 + w.bits / 8⟩) := by
  generalize hu : (⟨pre ++ int_tag w :: p ++ rest, pre.length⟩ : Unpacker) = u
  have hdrop : u.data.drop u.data_pointer = int_tag w :: (p ++ rest) := by
    subst hu; simp
  have hdata : pre ++ int_tag w :: p ++ rest = u.data := by subst hu; rfl
  have hptr : pre.length = u.data_pointer := by subst hu; rfl
  have hd := Unpacker.deref_of_drop _ _ _ hdrop
  have h2 := Unpacker.drop_incr _ _ _ hdrop
  have hlt := from_big_endian_lt p hp
  rw [hdata, hptr]
  clear hu hdata hptr hdrop
  rw [hlen] at hlt
  cases w
  · -- int8
    obtain ⟨b, rfl⟩ : ∃ b, p = [b] := by
      match p, hlen with
      | [b], _ => exact ⟨b, rfl⟩
    have hd1 := Unpacker.deref_of_drop _ _ _ h2
    have hb : from_big_endian [b] = b := by simp [from_big_endian]
    rw [hb] at hlt ⊢
    have hU : b < 256 := by simpa [Width.bits] using hlt
    simp only [Unpacker.unpack_type_signed, Unpacker.unpack_type_int8, hd, int_tag, int8,
      if_true, hd1, signed_of_pattern, int_cast, Width.bits]
    refine congrArg some (Prod.ext ?_ ?_)
    · simp only []
      split <;> omega
    · simp [Unpacker.incr, Nat.add_assoc]
  · -- int16
    have ho := Unpacker.or_postinc_eq 16 rest p hp (by simp [hlen, Width.bits]) u.incr 0 h2
    simp only [Nat.mul_zero, Nat.zero_add, hlen] at ho
    generalize from_big_endian p = U at hlt ho ⊢
    have hU : U < 65536 := by simpa [Width.bits] using hlt
    have htb := testBit_top 15 U (by omega)
    simp only [Width.bits] at ho ⊢
    by_cases hs : 2 ^ 15 ≤ U
    · rw [decide_eq_true hs] at htb
      simp only [Unpacker.unpack_type_signed, Unpacker.unpack_type_int16, hd, int_tag, int16,
        if_true, ho, htb, signed_of_pattern, int_cast, bitset_not]
      refine congrArg some (Prod.ext ?_ ?_)
      · simp only []
        split <;> omega
      · simp [Unpacker.incr, Nat.add_assoc]
    · rw [decide_eq_false hs] at htb
      simp only [Unpacker.unpack_type_signed, Unpacker.unpack_type_int16, hd, int_tag, int16,
        if_true, ho, htb, signed_of_pattern, int_cast, bitset_not]
      refine congrArg some (Prod.ext ?_ ?_)
      · simp only []
        split <;> omega
      · simp [Unpacker.incr, Nat.add_assoc]
  · -- int32
    have ho := Unpacker.or_postinc_eq 32 rest p hp (by simp [hlen, Width.bits]) u.incr 0 h2
    simp only [Nat.mul_zero, Nat.zero_add, hlen] at ho
    generalize from_big_endian p = U at hlt ho ⊢
    have hU : U < 4294967296 := by simpa [Width.bits] using hlt
    have htb := testBit_top 31 U (by omega)
    simp only [Width.bits] at ho ⊢
    by_cases hs : 2 ^ 31 ≤ U
    · rw [decide_eq_true hs] at htb
      simp only [Unpacker.unpack_type_signed, Unpacker.unpack_type_int32, hd, int_tag, int32,
        if_true, ho, htb, signed_of_pattern, int_cast, bitset_not]
      refine congrArg some (Prod.ext ?_ ?_)
      · simp only []
        split <;> omega
      · simp [Unpacker.incr, Nat.add_assoc]
    · rw [decide_eq_false hs] at htb
      simp only [Unpacker.unpack_type_signed, Unpacker.unpack_type_int32, hd, int_tag, int32,
        if_true, ho, htb, signed_of_pattern, int_cast, bitset_not]
      refine congrArg some (Prod.ext ?_ ?_)
      · simp only []
        split <;> omega
      · simp [Unpacker.incr, Nat.add_assoc]
  · -- int64
    have ho := Unpacker.or_postinc_eq 64 rest p hp (by simp [hlen, Width.bits]) u.incr 0 h2
    simp only [Nat.mul_zero, Nat.zero_add, hlen] at ho
    generalize from_big_endian p = U at hlt ho ⊢
    have hU : U < 18446744073709551616 := by simpa [Width.bits] using hlt
    have htb := testBit_top 63 U (by omega)
    simp only [Width.bits] at ho ⊢
    by_cases hs : 2 ^ 63 ≤ U
    · rw [decide_eq_true hs] at htb
      simp only [Unpacker.unpack_type_signed, Unpacker.unpack_type_int64, hd, int_tag, int64,
        if_true, ho, htb, signed_of_pattern, int_cast, bitset_not]
      refine congrArg some (Prod.ext ?_ ?_)
      · simp only []
        split <;> omega
      · simp [Unpacker.incr, Nat.add_assoc]
    · rw [decide_eq_false hs] at htb
      simp only [Unpacker.unpack_type_signed, Unpacker.unpack_type_int64, hd, int_tag, int64,
        if_true, ho, htb, signed_of_pattern, int_cast, bitset_not]
      refine congrArg some (Prod.ext ?_ ?_)
      · simp only []
        split <;> omega
      · simp [Unpacker.incr, Nat.add_assoc]

/-- Witness for C17: the int16 encoding `[0xd1, 0xfc, 0x18]` of -1000. -/
theorem explicit_signed_tag_decode_witness :
    [0xfc, 0x18].length = Width.w16.bits / 8 ∧ (∀ b ∈ [0xfc, 0x18], b < 256) ∧
    Unpacker.unpack_type_signed Width.w16
        ⟨[] ++ int_tag Width.w16 :: [0xfc, 0x18] ++ [0xc0], ([] : List Nat).length⟩
      = some (signed_of_pattern Width.w16.bits (from_big_endian [0xfc, 0x18]),
          ⟨[] ++ int_tag Width.w16 :: [0xfc, 0x18] ++ [0xc0],
            ([] : List Nat).length + 1 + Width.w16.bits / 8⟩) :=
  ⟨by decide, by decide,
    explicit_signed_tag_decode Width.w16 [0xfc, 0x18] (by decide) (by decide) [] [0xc0]⟩

/-- C18 (float64 decode formula) fails on the code: for the pattern with sign 0,
exponent field 1022 and mantissa field 0, that is the bytes
`[0x3f, 0xe0, 0, 0, 0, 0, 0, 0]` behind the tag `0xcb`, the unpacker yields
positive infinity; the formula gives `2 ^ (1022 - 1023) = 0.5`. -/
theorem float64_decode_overflows_below_one :
    Unpacker.unpack_type_double ⟨[0xcb, 0x3f, 0xe0, 0x00, 0x00, 0x00, 0x00, 0x00, 0x00], 0⟩
      = some (Double.infinity false,
          ⟨[0xcb, 0x3f, 0xe0, 0x00, 0x00, 0x00, 0x00, 0x00, 0x00], 9⟩)
    ∧ big_endian 8 ((0 <<< 63) ||| (1022 <<< 52) ||| 0)
      = [0x3f, 0xe0, 0x00, 0x00, 0x00, 0x00, 0x00, 0x00] := by
  refine ⟨?_, by decide⟩
  have hacc : Unpacker.accumulate_data 64 8
      (Unpacker.incr ⟨[0xcb, 0x3f, 0xe0, 0x00, 0x00, 0x00, 0x00, 0x00, 0x00], 0⟩) 0
      = some (0x3fe0000000000000,
          ⟨[0xcb, 0x3f, 0xe0, 0x00, 0x00, 0x00, 0x00, 0x00, 0x00], 9⟩) := by
    decide
  have hclear : ∀ j, j < 52 → (0x3fe0000000000000 : Nat).testBit j = false := by decide
  have hsign : (0x3fe0000000000000 : Nat).testBit 63 = false := by decide
  have hexp : Unpacker.exponent_sum 16 52 0x3fe0000000000000 11 0 0 = 1022 := by decide
  have hd : Unpacker.deref ⟨[0xcb, 0x3f, 0xe0, 0x00, 0x00, 0x00, 0x00, 0x00, 0x00], 0⟩
      = some 0xcb := by decide
  have hb : bitset 64 0x3fe0000000000000 = 0x3fe0000000000000 := by decide
  simp only [Unpacker.unpack_type_double, hd, float64, if_true, hacc, hb,
    Unpacker.mantissa_sum_clear 52 _ 1 52 hclear, hsign]
  rw [hexp]
  have h := ldexp_overflow 1 65535 (by simp [fabs_of_nonneg]) (by norm_num)
  simpa using h

/-- C19 (float64 encoder is bit-exact): for every normal double
`v = (-1) ^ s * (1 + m / 2 ^ 52) * 2 ^ E` with `m < 2 ^ 52`,
`-1022 ≤ E ≤ 1023` and a non-zero fractional part, the packer appends exactly
9 bytes: the tag `0xcb`, then the 8 big-endian bytes of the word
`(s << 63) | ((E + 1023) << 52) | m`. -/
theorem float64_encoder_bit_exact (p : Packer) (s m : Nat) (E : Int) (hs : s < 2)
    (hm : m < 2 ^ 52) (hE1 : -1022 ≤ E) (hE2 : E ≤ 1023) (v : ℚ)
    (hv : v = (-1) ^ s * (1 + (m : ℚ) / 2 ^ 52) * 2 ^ E) (hfrac : ∀ z : Int, v ≠ z) :
    (p.pack_type_double v).serialized_object
      = p.serialized_object
        ++ 0xcb :: big_endian 8 ((s <<< 63) ||| ((E + 1023).toNat <<< 52) ||| m)
    ∧ (p.pack_type_double v).serialized_object.length = p.serialized_object.length + 9 := by
  have h := Packer.pack_type_double_normal p s m E hs hm hE1 hE2 v hv hfrac
  refine ⟨h, ?_⟩
  rw [h]
  simp [big_endian_length]

/-- Witness for C19: the value -1.5, with sign 1, mantissa field `2 ^ 51` and
exponent 0. -/
theorem float64_encoder_bit_exact_witness :
    (1 < 2) ∧ (2 ^ 51 < 2 ^ 52) ∧ ((-1022 : Int) ≤ 0) ∧ ((0 : Int) ≤ 1023)
    ∧ ((-3 / 2 : ℚ) = (-1) ^ 1 * (1 + ((2 ^ 51 : Nat) : ℚ) / 2 ^ 52) * 2 ^ (0 : Int))
    ∧ (∀ z : Int, (-3 / 2 : ℚ) ≠ z)
    ∧ ((⟨[]⟩ : Packer).pack_type_double (-3 / 2)).serialized_object
      = (⟨[]⟩ : Packer).serialized_object
        ++ 0xcb :: big_endian 8 ((1 <<< 63) ||| (((0 : Int) + 1023).toNat <<< 52) ||| 2 ^ 51)
    ∧ ((⟨[]⟩ : Packer).pack_type_double (-3 / 2)).serialized_object.length
      = (⟨[]⟩ : Packer).serialized_object.length + 9 :=
  ⟨by norm_num, by norm_num, by norm_num, by norm_num, by norm_num,
    fun z h => three_halves_ne_int (-z) (by push_cast; rw [← h]; norm_num),
    float64_encoder_bit_exact ⟨[]⟩ 1 (2 ^ 51) 0 (by norm_num) (by norm_num) (by norm_num)
      (by norm_num) (-3 / 2) (by norm_num)
      (fun z h => three_halves_ne_int (-z) (by push_cast; rw [← h]; norm_num))⟩

/-- C20 (float32 payload width) fails on the code where `unsigned long` has 8
bytes: the float 0.5 is packed into 9 bytes, the tag `0xca`, four zero bytes
and the four bytes of the pattern `0x3f000000`; where `unsigned long` has 4
bytes the packer appends the 5 bytes `[0xca, 0x3f, 0, 0, 0]`. -/
theorem float32_payload_has_unsigned_long_width :
    (∀ z : Int, (1 / 2 : ℚ) ≠ z)
    ∧ ((⟨[]⟩ : Packer).pack_type_float 8 (1 / 2)).serialized_object
      = [0xca, 0x00, 0x00, 0x00, 0x00, 0x3f, 0x00, 0x00, 0x00]
    ∧ ((⟨[]⟩ : Packer).pack_type_float 4 (1 / 2)).serialized_object
      = [0xca, 0x3f, 0x00, 0x00, 0x00] := by
  refine ⟨half_ne_int, ?_, ?_⟩
  · rw [Packer.pack_type_float_normal 8 ⟨[]⟩ 0 0 (-1) (by norm_num) (by norm_num)
      (by norm_num) (by norm_num) (1 / 2) (by norm_num) half_ne_int]
    decide
  · rw [Packer.pack_type_float_normal 4 ⟨[]⟩ 0 0 (-1) (by norm_num) (by norm_num)
      (by norm_num) (by norm_num) (1 / 2) (by norm_num) half_ne_int]
    decide

/-- C21 (oversize input is a silent no-op): for every string, binary blob or
array whose length is at least `2 ^ 32 - 1`, packing it leaves the `Packer`,
whose only state is the output buffer, exactly as it was: neither a header nor
any payload or element bytes are appended. -/
theorem oversize_input_is_noop {α : Type} (pack_elem : Packer → α → Packer) (p : Packer)
    (s b : List Nat) (xs : List α) (hs : 2 ^ 32 - 1 ≤ s.length)
    (hb : 2 ^ 32 - 1 ≤ b.length) (hxs : 2 ^ 32 - 1 ≤ xs.length) :
    p.pack_type_string s = p ∧ p.pack_type_bin b = p
    ∧ Packer.pack_array pack_elem p xs = p := by
  have hs' : 4294967295 ≤ s.length := by simpa using hs
  have hb' : 4294967295 ≤ b.length := by simpa using hb
  have hxs' : 4294967295 ≤ xs.length := by simpa using hxs
  refine ⟨?_, ?_, ?_⟩
  · unfold Packer.pack_type_string
    simp only [uint_max]
    rw [if_neg (by omega), if_neg (by omega), if_neg (by omega), if_neg (by omega)]
  · unfold Packer.pack_type_bin
    simp only [uint_max]
    rw [if_neg (by omega), if_neg (by omega), if_neg (by omega)]
  · unfold Packer.pack_array
    simp only [uint_max]
    rw [if_neg (by omega), if_neg (by omega), if_neg (by omega)]

/-- Witness for C21: a string, a blob and an array of `uint8_t` of `2 ^ 32 - 1`
elements each, packed into a buffer that already holds one byte. -/
theorem oversize_input_is_noop_witness :
    2 ^ 32 - 1 ≤ (List.replicate (2 ^ 32 - 1) 0x61).length
    ∧ 2 ^ 32 - 1 ≤ (List.replicate (2 ^ 32 - 1) 0x01).length
    ∧ 2 ^ 32 - 1 ≤ (List.replicate (2 ^ 32 - 1) 0x02).length
    ∧ (⟨[0xc0]⟩ : Packer).pack_type_string (List.replicate (2 ^ 32 - 1) 0x61) = ⟨[0xc0]⟩
    ∧ (⟨[0xc0]⟩ : Packer).pack_type_bin (List.replicate (2 ^ 32 - 1) 0x01) = ⟨[0xc0]⟩
    ∧ Packer.pack_array Packer.pack_type_uint8 ⟨[0xc0]⟩ (List.replicate (2 ^ 32 - 1) 0x02)
        = ⟨[0xc0]⟩ :=
  ⟨le_of_eq (List.length_replicate _ _).symm, le_of_eq (List.length_replicate _ _).symm,
    le_of_eq (List.length_replicate _ _).symm,
    oversize_input_is_noop Packer.pack_type_uint8 ⟨[0xc0]⟩ (List.replicate (2 ^ 32 - 1) 0x61)
      (List.replicate (2 ^ 32 - 1) 0x01) (List.replicate (2 ^ 32 - 1) 0x02)
      (le_of_eq (List.length_replicate _ _).symm) (le_of_eq (List.length_replicate _ _).symm)
      (le_of_eq (List.length_replicate _ _).symm)⟩

/-- C22 (exact failure set of the 16-bit signed round trip): for every 16-bit
signed value `v`, whatever the buffer held before and whatever follows on the
wire, unpacking what `pack_type(int16_t)` appended into an int16 target
succeeds with the cursor right after the appended bytes, and the value read is
`v` if and only if `v` is not in `[-32, -1]`; for `v` in `[-32, -1]` the packer
appends the single byte `v + 256` and the unpacker returns `v + 256`. -/
theorem int16_round_trip_failure_set (v : Int) (hlo : -32768 ≤ v) (hhi : v ≤ 32767)
    (b rest : List Nat) :
    (∃ r : Int,
        Unpacker.unpack_type_int16
            ⟨((⟨b⟩ : Packer).pack_type_int16 v).serialized_object ++ rest, b.length⟩
          = some (r, ⟨((⟨b⟩ : Packer).pack_type_int16 v).serialized_object ++ rest,
              ((⟨b⟩ : Packer).pack_type_int16 v).serialized_object.length⟩)
        ∧ (r = v ↔ ¬ (-32 ≤ v ∧ v ≤ -1)))
    ∧ (-32 ≤ v ∧ v ≤ -1 →
        ((⟨b⟩ : Packer).pack_type_int16 v).serialized_object = b ++ [(v + 256).toNat]
        ∧ Unpacker.unpack_type_int16 ⟨b ++ [(v + 256).toNat] ++ rest, b.length⟩
            = some (v + 256, ⟨b ++ [(v + 256).toNat] ++ rest, b.length + 1⟩)) := by
  have hrt := Unpacker.unpack_type_int16_packed v hlo hhi b rest
  have hpk := Packer.pack_type_int16_eq ⟨b⟩ v hlo hhi
  refine ⟨⟨_, hrt, ?_⟩, ?_⟩
  · by_cases hn : -32 ≤ v ∧ v ≤ -1
    · rw [if_pos hn]
      constructor
      · intro h; omega
      · intro h; exact absurd hn h
    · rw [if_neg hn]
      exact ⟨fun _ => hn, fun _ => rfl⟩
  · intro hn
    have h1 : -32 ≤ v ∧ v ≤ 31 := ⟨hn.1, by omega⟩
    have hb : (v % 256).toNat = (v + 256).toNat := by omega
    rw [if_pos h1, hb] at hpk
    have hpk' : ((⟨b⟩ : Packer).pack_type_int16 v).serialized_object
        = b ++ [(v + 256).toNat] := hpk
    refine ⟨hpk', ?_⟩
    rw [hpk', if_pos hn] at hrt
    rw [hrt]
    simp

theorem int16_round_trip_failure_set_witness :
    (-32768 : Int) ≤ -1 ∧ (-1 : Int) ≤ 32767
    ∧ ((⟨[0xc0]⟩ : Packer).pack_type_int16 (-1)).serialized_object = [0xc0] ++ [255]
    ∧ Unpacker.unpack_type_int16 ⟨[0xc0] ++ [255] ++ [0xc3], 1⟩
        = some (255, ⟨[0xc0] ++ [255] ++ [0xc3], 2⟩) :=
  ⟨by decide, by decide,
    (int16_round_trip_failure_set (-1) (by decide) (by decide) [0xc0] [0xc3]).2
      ⟨by decide, by decide⟩⟩

/-- C23 (unsigned explicit-tag decode accumulates into the target): for every
target width `w`, every prior target value `t` and every wire input that
starts with a uint16, uint32 or uint64 encoding `f` the target's unpacker has
a branch for, carrying the payload value `p`, the unpacker leaves the target
equal to `(t + p) mod 2 ^ w` and the cursor right after the encoding; that
result equals `p` exactly when `t = 0`.  On a positive fixint or a uint8
encoding `g` of `q` the unpacker overwrites the target with `q`, whatever
`t`. -/
theorem unsigned_explicit_tag_decode_accumulates (w : Width) (t : Nat) (ht : t < 2 ^ w.bits)
    (f : UnsignedForm) (p : Nat)
    (hf : f = UnsignedForm.u16 ∨ f = UnsignedForm.u32 ∨ f = UnsignedForm.u64)
    (hw : f.target_bits ≤ w.bits) (hp : p < f.capacity)
    (g : UnsignedForm) (q : Nat) (hg : g = UnsignedForm.fix ∨ g = UnsignedForm.u8)
    (hq : q < g.capacity) (pre rest : List Nat) :
    Unpacker.unpack_type_unsigned w ⟨pre ++ f.bytes p ++ rest, pre.length⟩ t
        = some ((t + p) % 2 ^ w.bits,
            ⟨pre ++ f.bytes p ++ rest, pre.length + (f.bytes p).length⟩)
    ∧ ((t + p) % 2 ^ w.bits = p ↔ t = 0)
    ∧ Unpacker.unpack_type_unsigned w ⟨pre ++ g.bytes q ++ rest, pre.length⟩ t
        = some (q, ⟨pre ++ g.bytes q ++ rest, pre.length + (g.bytes q).length⟩) := by
  refine ⟨?_, ?_, ?_⟩
  · have h := Unpacker.unpack_type_unsigned_form w f p t hp hw ht
      ⟨pre ++ f.bytes p ++ rest, pre.length⟩ rest (by simp)
    have hne : ¬ (f = UnsignedForm.fix ∨ f = UnsignedForm.u8) := by
      rcases hf with rfl | rfl | rfl <;> simp
    rw [if_neg hne] at h
    exact h
  · have hpw : p < 2 ^ w.bits := by
      have : f.capacity ≤ 2 ^ w.bits := by
        rcases hf with rfl | rfl | rfl <;> cases w <;>
          simp [UnsignedForm.capacity, UnsignedForm.target_bits, Width.bits] at hw ⊢
      omega
    generalize 2 ^ w.bits = M at ht hpw
    constructor
    · intro he
      by_contra h0
      have hlt : t + p < 2 * M := by omega
      by_cases hc : t + p < M
      · rw [Nat.mod_eq_of_lt hc] at he
        omega
      · have : (t + p) % M = t + p - M := by
          rw [Nat.mod_eq_sub_mod (by omega), Nat.mod_eq_of_lt (by omega)]
        omega
    · intro h0
      subst h0
      rw [Nat.zero_add, Nat.mod_eq_of_lt hpw]
  · have hw' : g.target_bits ≤ w.bits := by
      rcases hg with rfl | rfl <;> cases w <;> simp [UnsignedForm.target_bits, Width.bits]
    have h := Unpacker.unpack_type_unsigned_form w g q t hq hw' ht
      ⟨pre ++ g.bytes q ++ rest, pre.length⟩ rest (by simp)
    rw [if_pos hg] at h
    exact h

theorem unsigned_explicit_tag_decode_accumulates_witness :
    7 < 2 ^ Width.w16.bits
    ∧ (UnsignedForm.u16 = UnsignedForm.u16 ∨ UnsignedForm.u16 = UnsignedForm.u32
        ∨ UnsignedForm.u16 = UnsignedForm.u64)
    ∧ UnsignedForm.u16.target_bits ≤ Width.w16.bits
    ∧ 65535 < UnsignedForm.u16.capacity
    ∧ (UnsignedForm.u8 = UnsignedForm.fix ∨ UnsignedForm.u8 = UnsignedForm.u8)
    ∧ 200 < UnsignedForm.u8.capacity
    ∧ Unpacker.unpack_type_unsigned Width.w16
          ⟨[0xc0] ++ UnsignedForm.u16.bytes 65535 ++ [0xc3], [0xc0].length⟩ 7
        = some ((7 + 65535) % 2 ^ Width.w16.bits,
            ⟨[0xc0] ++ UnsignedForm.u16.bytes 65535 ++ [0xc3],
              [0xc0].length + (UnsignedForm.u16.bytes 65535).length⟩)
    ∧ ((7 + 65535) % 2 ^ Width.w16.bits = 65535 ↔ 7 = 0)
    ∧ Unpacker.unpack_type_unsigned Width.w16
          ⟨[0xc0] ++ UnsignedForm.u8.bytes 200 ++ [0xc3], [0xc0].length⟩ 7
        = some (200, ⟨[0xc0] ++ UnsignedForm.u8.bytes 200 ++ [0xc3],
            [0xc0].length + (UnsignedForm.u8.bytes 200).length⟩) :=
  ⟨by decide, Or.inl rfl, by decide, by decide, Or.inr rfl, by decide,
    unsigned_explicit_tag_decode_accumulates Width.w16 7 (by decide) UnsignedForm.u16 65535
      (Or.inl rfl) (by decide) (by decide) UnsignedForm.u8 200 (Or.inr rfl) (by decide)
      [0xc0] [0xc3]⟩

end msgpack
